import Mathlib

/-!
Verification of the Lumina local library engine (a client-side ebook
library manager written in TypeScript).  We give a shallow embedding of
the record store (src/services/db.ts), the grouping / faceting /
sort pipeline and the single- and bulk-mutation handlers
(src/App.tsx), and prove or refute the frozen specification claims
about them.

Modelling conventions:
* JavaScript strings are Lean `String`s; the relevant JS string
  operations (trim, toLowerCase) are re-implemented over `String.data`
  so that all definitions evaluate inside the kernel.
* `undefined`-able fields are `Option`s; JS truthiness of a string
  field (`undefined` and `""` are falsy) is `strTruthy`.
* `localeCompare` is modelled as code-point comparison;
  `localeCompare(_, undefined, { numeric: true, sensitivity: 'base' })`
  is modelled as a natural (digit-run aware, case-insensitive)
  comparison.  Both are total preorders induced by explicit key
  functions, as required for reasoning about sorting.
* `Array.prototype.sort` is a stable comparator sort; we model it with
  `List.insertionSort`, which is stable and has the same contract.
* IndexedDB is modelled as a list of records with insert-or-replace
  keyed by `id`; `getAll` returns records in key order.
-/

/-! ## Ordering-valued comparators and their laws -/

/-- Comparator on naturals, the base of all key comparisons. -/
def cmpNat (a b : Nat) : Ordering :=
  if a < b then .lt else if b < a then .gt else .eq

/-- Lexicographic comparator on lists from an element comparator. -/
def listCmp (cmp : α → α → Ordering) : List α → List α → Ordering
  | [], [] => .eq
  | [], _ :: _ => .lt
  | _ :: _, [] => .gt
  | a :: as, b :: bs =>
    match cmp a b with
    | .eq => listCmp cmp as bs
    | o => o

/-- Comparator on sums: every `inl` is below every `inr`. -/
def sumCmp (ca : α → α → Ordering) (cb : β → β → Ordering) :
    α ⊕ β → α ⊕ β → Ordering
  | .inl a, .inl b => ca a b
  | .inl _, .inr _ => .lt
  | .inr _, .inl _ => .gt
  | .inr a, .inr b => cb a b

/-- Lexicographic comparator on pairs. -/
def prodCmp (ca : α → α → Ordering) (cb : β → β → Ordering)
    (x y : α × β) : Ordering :=
  match ca x.1 y.1 with
  | .eq => cb x.2 y.2
  | o => o

/-- Laws making an `Ordering`-valued comparator a decidable linear
order: `eq` means equality, swapping arguments swaps the verdict, and
strict comparison is transitive. -/
structure LawCmp (cmp : α → α → Ordering) : Prop where
  eq_iff : ∀ a b, cmp a b = .eq ↔ a = b
  symm : ∀ a b, cmp b a = (cmp a b).swap
  lt_trans : ∀ {a b c}, cmp a b = .lt → cmp b c = .lt → cmp a c = .lt

namespace LawCmp

theorem cmpNat_law : LawCmp cmpNat := by
  refine ⟨?_, ?_, ?_⟩
  · intro a b
    rcases Nat.lt_trichotomy a b with h | h | h
    · simp [cmpNat, h, Nat.ne_of_lt h]
    · subst h; simp [cmpNat]
    · simp [cmpNat, h, Nat.lt_asymm h, Nat.ne_of_lt' h]
  · intro a b
    rcases Nat.lt_trichotomy a b with h | h | h
    · simp [cmpNat, h, Nat.lt_asymm h, Ordering.swap]
    · subst h; simp [cmpNat, Ordering.swap]
    · simp [cmpNat, h, Nat.lt_asymm h, Ordering.swap]
  · intro a b c hab hbc
    have h1 : a < b := by
      by_contra hc
      unfold cmpNat at hab
      rw [if_neg hc] at hab
      split at hab <;> simp_all
    have h2 : b < c := by
      by_contra hc
      unfold cmpNat at hbc
      rw [if_neg hc] at hbc
      split at hbc <;> simp_all
    unfold cmpNat
    rw [if_pos (Nat.lt_trans h1 h2)]

theorem listCmp_law {cmp : α → α → Ordering} (h : LawCmp cmp) :
    LawCmp (listCmp cmp) := by
  refine ⟨?_, ?_, ?_⟩
  · intro a
    induction a with
    | nil => intro b; cases b <;> simp [listCmp]
    | cons x xs ih =>
      intro b
      cases b with
      | nil => simp [listCmp]
      | cons y ys =>
        simp only [listCmp]
        cases hxy : cmp x y with
        | eq =>
          have hx : x = y := (h.eq_iff x y).mp hxy
          subst hx
          simp [ih ys]
        | lt =>
          simp only [reduceCtorEq, false_iff, ne_eq]
          intro hc
          injection hc with h1 _
          rw [(h.eq_iff x y).mpr h1] at hxy
          exact absurd hxy (by simp)
        | gt =>
          simp only [reduceCtorEq, false_iff, ne_eq]
          intro hc
          injection hc with h1 _
          rw [(h.eq_iff x y).mpr h1] at hxy
          exact absurd hxy (by simp)
  · intro a
    induction a with
    | nil => intro b; cases b <;> simp [listCmp, Ordering.swap]
    | cons x xs ih =>
      intro b
      cases b with
      | nil => simp [listCmp, Ordering.swap]
      | cons y ys =>
        have hyx : cmp y x = (cmp x y).swap := h.symm x y
        simp only [listCmp]
        cases hxy : cmp x y with
        | eq =>
          rw [hxy] at hyx
          simp only [Ordering.swap] at hyx
          rw [hyx]
          exact ih ys
        | lt =>
          rw [hxy] at hyx
          simp only [Ordering.swap] at hyx
          rw [hyx]
          rfl
        | gt =>
          rw [hxy] at hyx
          simp only [Ordering.swap] at hyx
          rw [hyx]
          rfl
  · intro a
    induction a with
    | nil =>
      intro b c hab hbc
      cases b <;> cases c <;> simp_all [listCmp]
    | cons x xs ih =>
      intro b c hab hbc
      cases b with
      | nil => simp [listCmp] at hab
      | cons y ys =>
        cases c with
        | nil => simp [listCmp] at hbc
        | cons z zs =>
          simp only [listCmp] at hab hbc ⊢
          cases hxy : cmp x y with
          | eq =>
            rw [hxy] at hab
            have hx : x = y := (h.eq_iff x y).mp hxy
            subst hx
            cases hyz : cmp x z with
            | eq =>
              rw [hyz] at hbc
              have hy : x = z := (h.eq_iff x z).mp hyz
              subst hy
              exact ih hab hbc
            | lt => rfl
            | gt => rw [hyz] at hbc; exact Ordering.noConfusion hbc
          | lt =>
            cases hyz : cmp y z with
            | eq =>
              have hy : y = z := (h.eq_iff y z).mp hyz
              subst hy
              rw [hxy]
            | lt => rw [h.lt_trans hxy hyz]
            | gt => rw [hyz] at hbc; exact Ordering.noConfusion hbc
          | gt => rw [hxy] at hab; exact Ordering.noConfusion hab

theorem sumCmp_law {ca : α → α → Ordering} {cb : β → β → Ordering}
    (ha : LawCmp ca) (hb : LawCmp cb) : LawCmp (sumCmp ca cb) := by
  refine ⟨?_, ?_, ?_⟩
  · intro a b
    cases a with
    | inl a1 =>
      cases b with
      | inl b1 => simpa only [sumCmp, Sum.inl.injEq] using ha.eq_iff a1 b1
      | inr b1 => simp [sumCmp]
    | inr a1 =>
      cases b with
      | inl b1 => simp [sumCmp]
      | inr b1 => simpa only [sumCmp, Sum.inr.injEq] using hb.eq_iff a1 b1
  · intro a b
    cases a with
    | inl a1 =>
      cases b with
      | inl b1 => exact ha.symm a1 b1
      | inr b1 => rfl
    | inr a1 =>
      cases b with
      | inl b1 => rfl
      | inr b1 => exact hb.symm a1 b1
  · intro a b c hab hbc
    cases a <;> cases b <;> cases c <;>
      first
        | exact Ordering.noConfusion hab
        | exact Ordering.noConfusion hbc
        | exact ha.lt_trans hab hbc
        | exact hb.lt_trans hab hbc
        | rfl

theorem prodCmp_law {ca : α → α → Ordering} {cb : β → β → Ordering}
    (ha : LawCmp ca) (hb : LawCmp cb) : LawCmp (prodCmp ca cb) := by
  refine ⟨?_, ?_, ?_⟩
  · intro a b
    obtain ⟨a1, a2⟩ := a
    obtain ⟨b1, b2⟩ := b
    simp only [prodCmp, Prod.mk.injEq]
    cases h1 : ca a1 b1 with
    | eq =>
      have he : a1 = b1 := (ha.eq_iff a1 b1).mp h1
      simp [he, hb.eq_iff]
    | lt =>
      simp only [reduceCtorEq, false_iff, not_and]
      intro h2
      rw [(ha.eq_iff a1 b1).mpr h2] at h1
      exact absurd h1 (by simp)
    | gt =>
      simp only [reduceCtorEq, false_iff, not_and]
      intro h2
      rw [(ha.eq_iff a1 b1).mpr h2] at h1
      exact absurd h1 (by simp)
  · intro a b
    simp only [prodCmp]
    rw [ha.symm a.1 b.1]
    cases h1 : ca a.1 b.1 with
    | eq => simp only [Ordering.swap]; exact hb.symm a.2 b.2
    | lt => simp only [Ordering.swap]
    | gt => simp only [Ordering.swap]
  · intro a b c hab hbc
    simp only [prodCmp] at *
    cases h1 : ca a.1 b.1 with
    | eq =>
      have he : a.1 = b.1 := (ha.eq_iff a.1 b.1).mp h1
      rw [h1] at hab
      cases h2 : ca b.1 c.1 with
      | eq =>
        have he2 : b.1 = c.1 := (ha.eq_iff b.1 c.1).mp h2
        rw [h2] at hbc
        rw [(ha.eq_iff a.1 c.1).mpr (he.trans he2)]
        exact hb.lt_trans hab hbc
      | lt => rw [he, h2]
      | gt => rw [h2] at hbc; exact absurd hbc (by simp)
    | lt =>
      cases h2 : ca b.1 c.1 with
      | eq =>
        have he2 : b.1 = c.1 := (ha.eq_iff b.1 c.1).mp h2
        rw [← he2, h1]
      | lt => rw [ha.lt_trans h1 h2]
      | gt => rw [h2] at hbc; exact absurd hbc (by simp)
    | gt => rw [h1] at hab; exact absurd hab (by simp)

theorem eq_refl {cmp : α → α → Ordering} (h : LawCmp cmp) (a : α) :
    cmp a a = .eq := (h.eq_iff a a).mpr rfl

/-- The non-strict relation induced by a comparator. -/
theorem le_total {cmp : α → α → Ordering} (h : LawCmp cmp) (a b : α) :
    cmp a b ≠ .gt ∨ cmp b a ≠ .gt := by
  rw [h.symm a b]
  cases cmp a b <;> simp [Ordering.swap]

theorem le_trans {cmp : α → α → Ordering} (h : LawCmp cmp) {a b c : α}
    (hab : cmp a b ≠ .gt) (hbc : cmp b c ≠ .gt) : cmp a c ≠ .gt := by
  cases h1 : cmp a b with
  | gt => exact absurd h1 hab
  | eq =>
    have := (h.eq_iff a b).mp h1
    subst this
    exact hbc
  | lt =>
    cases h2 : cmp b c with
    | gt => exact absurd h2 hbc
    | eq =>
      have := (h.eq_iff b c).mp h2
      subst this
      simp [h1]
    | lt => simp [h.lt_trans h1 h2]

end LawCmp

/-! ## JS string primitives -/

/-- JS whitespace characters relevant to `String.prototype.trim`
(space, tab, LF, CR). -/
def jsWs (c : Char) : Bool :=
  c = ' ' || c = '\t' || c = '\n' || c = '\r'

/-- Model of `String.prototype.trim`. -/
def jsTrim (s : String) : String :=
  ⟨((s.data.dropWhile jsWs).reverse.dropWhile jsWs).reverse⟩

/-- ASCII model of `String.prototype.toLowerCase`. -/
def lowerChar (c : Char) : Char :=
  if 65 ≤ c.toNat ∧ c.toNat ≤ 90 then Char.ofNat (c.toNat + 32) else c

/-- Model of `String.prototype.toLowerCase`. -/
def jsToLower (s : String) : String :=
  ⟨s.data.map lowerChar⟩

/-- JS truthiness of an optional string field (`undefined` and `""`
are falsy). -/
def strTruthy : Option String → Bool
  | none => false
  | some s => !(s == "")

/-- Model of `x || ''` on an optional string. -/
def jsStr (o : Option String) : String := o.getD ""

/-- Model of `x || d` on an optional string with a non-empty default
(`undefined` and `""` both fall back to the default). -/
def jsOrDefault (o : Option String) (d : String) : String :=
  match o with
  | none => d
  | some s => if s = "" then d else s

/-- Code points of a string, the key for plain `localeCompare`
(modelled as code-point comparison). -/
def rawCodes (s : String) : List Nat := s.data.map Char.toNat

/-- Model of plain `a.localeCompare(b)`. -/
def localeCmp (s t : String) : Ordering :=
  listCmp cmpNat (rawCodes s) (rawCodes t)

theorem localeCmp_law_aux : LawCmp (listCmp cmpNat) :=
  LawCmp.listCmp_law LawCmp.cmpNat_law

theorem char_toNat_inj {c d : Char} (h : c.toNat = d.toNat) : c = d := by
  have hv : c.val = d.val := UInt32.ext h
  cases c; cases d
  simp_all

theorem rawCodes_inj {s t : String} (h : rawCodes s = rawCodes t) :
    s = t := by
  cases s with
  | mk ds =>
    cases t with
    | mk dt =>
      simp only [rawCodes] at h
      have : ds = dt := by
        clear * - h
        induction ds generalizing dt with
        | nil => cases dt <;> simp_all
        | cons c cs ih =>
          cases dt with
          | nil => simp_all
          | cons d dts =>
            simp only [List.map_cons, List.cons.injEq] at h
            simp [char_toNat_inj h.1, ih dts h.2]
      simp [this]

theorem localeCmp_eq_iff {s t : String} :
    localeCmp s t = .eq ↔ s = t := by
  constructor
  · intro h
    exact rawCodes_inj ((localeCmp_law_aux.eq_iff _ _).mp h)
  · intro h; subst h; exact localeCmp_law_aux.eq_refl _

/-! ## The data model (src/unnamed types.ts): `Book` -/

/-- BookRecord: one stored ebook file plus its metadata
(interface Book in the source). `addedAt` is the creation timestamp.
The binary payload is abstracted to a list of bytes. -/
structure Book where
  id : String
  title : String
  author : String
  description : String
  releaseDate : String
  genre : String
  language : Option String
  seriesTitle : Option String
  seriesIndex : Option String
  seriesColor : Option String
  group : Option String
  groupColor : Option String
  status : Option String
  fileName : String
  fileType : String
  fileSize : Nat
  addedAt : Int
  coverColor : String
  fileData : Option (List Nat)
deriving DecidableEq, Repr

instance : Inhabited Book :=
  ⟨{ id := "", title := "", author := "", description := "",
     releaseDate := "", genre := "", language := none,
     seriesTitle := none, seriesIndex := none, seriesColor := none,
     group := none, groupColor := none, status := none,
     fileName := "", fileType := "", fileSize := 0, addedAt := 0,
     coverColor := "", fileData := none }⟩

/-! ## Record store (src/services/db.ts) -/

/-- Store state: the set of persisted records, as a list.  `put`
(`store.put(book)` inside `addBook` / `updateBook`) replaces the
record with the same key if present, else inserts. -/
def put (s : List Book) (r : Book) : List Book :=
  if s.any (fun b => b.id = r.id) then
    s.map (fun b => if b.id = r.id then r else b)
  else
    s ++ [r]

/-- Model of `store.delete(id)` in `deleteBook`. -/
def deleteBook (s : List Book) (id : String) : List Book :=
  s.filter (fun b => !(b.id = id))

/-- Key-order retrieval model: IndexedDB `getAll()` returns records
in key (id) order. -/
def keyOrder (s : List Book) : List Book :=
  List.insertionSort
    (fun a b => listCmp cmpNat (rawCodes a.id) (rawCodes b.id) ≠ .gt) s

/-- Model of `getAllBooks`: `getAll()` (key order) followed by
`books.sort((a, b) => b.addedAt - a.addedAt)`. -/
def getAllBooks (s : List Book) : List Book :=
  List.insertionSort (fun a b => b.addedAt - a.addedAt ≤ 0) (keyOrder s)

/-- Lookup of a record by id (first match). -/
def lookupId (s : List Book) (id : String) : Option Book :=
  s.find? (fun b => b.id = id)

theorem mem_getAllBooks {s : List Book} {b : Book} :
    b ∈ getAllBooks s ↔ b ∈ s := by
  unfold getAllBooks keyOrder
  rw [(List.perm_insertionSort _ _).mem_iff,
      (List.perm_insertionSort _ _).mem_iff]

theorem mem_put_self (s : List Book) (r : Book) : r ∈ put s r := by
  unfold put
  split
  · next h =>
    simp only [List.any_eq_true, decide_eq_true_eq] at h
    obtain ⟨b, hb, hid⟩ := h
    exact List.mem_map.mpr ⟨b, hb, by simp [hid]⟩
  · simp

theorem mem_deleteBook {s : List Book} {b : Book} {id : String}
    (h : b ∈ deleteBook s id) : b.id ≠ id := by
  unfold deleteBook at h
  rw [List.mem_filter] at h
  simpa using h.2

theorem put_put_same (s : List Book) (r : Book) :
    put (put s r) r = put s r := by
  unfold put
  split
  · next h =>
    have hmem : (s.map (fun b => if b.id = r.id then r else b)).any
        (fun b => b.id = r.id) = true := by
      simp only [List.any_eq_true, decide_eq_true_eq] at h ⊢
      obtain ⟨b, hb, hid⟩ := h
      exact ⟨r, List.mem_map.mpr ⟨b, hb, by simp [hid]⟩, rfl⟩
    rw [if_pos hmem, List.map_map]
    apply List.map_congr_left
    intro b _
    by_cases hb : b.id = r.id <;> simp [hb]
  · next h =>
    have hmem : (s ++ [r]).any (fun b => b.id = r.id) = true := by
      simp
    rw [if_pos hmem, List.map_append]
    have h1 : s.map (fun b => if b.id = r.id then r else b) = s.map id := by
      apply List.map_congr_left
      intro b hb
      have : ¬ b.id = r.id := by
        simp only [List.any_eq_true, decide_eq_true_eq] at h
        exact fun hc => h ⟨b, hb, hc⟩
      simp [this]
    rw [h1, List.map_id]
    simp

/-! ### Lookup lemmas for the store -/

theorem find_map_replace_self (r : Book) :
    ∀ s : List Book,
      (s.map (fun b => if b.id = r.id then r else b)).find?
          (fun b => b.id = r.id) =
        if s.any (fun b => b.id = r.id) then some r else none := by
  intro s
  induction s with
  | nil => rfl
  | cons b bs ih =>
    by_cases hb : b.id = r.id
    · simp [List.find?, hb]
    · simp [List.find?, hb, ih]

theorem find_map_replace_ne (r : Book) (id : String) (h : id ≠ r.id) :
    ∀ s : List Book,
      (s.map (fun b => if b.id = r.id then r else b)).find?
          (fun b => b.id = id) =
        s.find? (fun b => b.id = id) := by
  intro s
  induction s with
  | nil => rfl
  | cons b bs ih =>
    by_cases hb : b.id = r.id
    · have hr : ¬ r.id = id := fun hc => h hc.symm
      have hbid : ¬ b.id = id := fun hc => h (hc.symm.trans hb)
      simp [List.find?, hb, hr, hbid, ih]
    · by_cases hid : b.id = id
      · simp [List.find?, hb, hid, h]
      · simp [List.find?, hb, hid, ih]

theorem find_append_single (r : Book) (id : String) :
    ∀ s : List Book,
      (s ++ [r]).find? (fun b => b.id = id) =
        match s.find? (fun b => b.id = id) with
        | some b => some b
        | none => if r.id = id then some r else none := by
  intro s
  induction s with
  | nil =>
    simp only [List.nil_append, List.find?]
    by_cases h : r.id = id <;> simp [List.find?, h]
  | cons b bs ih =>
    by_cases hid : b.id = id
    · simp [List.find?, hid]
    · simp [List.find?, hid, ih]

theorem lookupId_put_self (s : List Book) (r : Book) :
    lookupId (put s r) r.id = some r := by
  unfold put lookupId
  split
  · next h => rw [find_map_replace_self, if_pos h]
  · next h =>
    rw [find_append_single]
    have : s.find? (fun b => b.id = r.id) = none := by
      rw [List.find?_eq_none]
      intro b hb
      simp only [List.any_eq_true, decide_eq_true_eq] at h
      simp only [decide_eq_true_eq]
      exact fun hc => h ⟨b, hb, hc⟩
    rw [this]
    simp

theorem lookupId_put_ne (s : List Book) (r : Book) (id : String)
    (h : id ≠ r.id) : lookupId (put s r) id = lookupId s id := by
  unfold put lookupId
  split
  · exact find_map_replace_ne r id h s
  · rw [find_append_single]
    have hr : ¬ r.id = id := fun hc => h hc.symm
    cases hf : s.find? (fun b => b.id = id) <;> simp [hr]

theorem lookupId_foldl_put_of_forall (ws : List Book) (s : List Book)
    (id : String) (h : ∀ w ∈ ws, w.id ≠ id) :
    lookupId (ws.foldl put s) id = lookupId s id := by
  induction ws generalizing s with
  | nil => rfl
  | cons w ws ih =>
    simp only [List.foldl_cons]
    rw [ih (put s w) (fun v hv => h v (List.mem_cons_of_mem w hv))]
    exact lookupId_put_ne s w id
      (fun hc => h w (List.mem_cons_self w ws) hc.symm)

theorem lookupId_foldl_put_split (ws1 ws2 : List Book) (w : Book)
    (s : List Book) (h : ∀ v ∈ ws2, v.id ≠ w.id) :
    lookupId ((ws1 ++ w :: ws2).foldl put s) w.id = some w := by
  rw [List.foldl_append]
  simp only [List.foldl_cons]
  rw [lookupId_foldl_put_of_forall ws2 _ w.id h]
  exact lookupId_put_self _ w

/-- Blank record used as a template for concrete test records. -/
def baseBook : Book :=
  { id := "", title := "", author := "", description := "",
    releaseDate := "", genre := "", language := none,
    seriesTitle := none, seriesIndex := none, seriesColor := none,
    group := none, groupColor := none, status := none,
    fileName := "", fileType := "", fileSize := 0, addedAt := 0,
    coverColor := "", fileData := none }

/-- C9: for every record r, put(r) followed by listAll() yields a
record equal in all fields to r; delete(r.id) followed by listAll()
never includes r.id; and putting the same full record twice leaves the
store in the same state as putting it once. -/
theorem c9_store_roundtrip (s : List Book) (r : Book) :
    r ∈ getAllBooks (put s r)
    ∧ (∀ b ∈ getAllBooks (deleteBook s r.id), b.id ≠ r.id)
    ∧ put (put s r) r = put s r := by
  refine ⟨mem_getAllBooks.mpr (mem_put_self s r), ?_, put_put_same s r⟩
  intro b hb
  exact mem_deleteBook (mem_getAllBooks.mp hb)

/-- Concrete records for the C9 witness. -/
def bookW : Book := { baseBook with id := "w", title := "W", addedAt := 5 }

def bookV : Book := { baseBook with id := "v", title := "V", addedAt := 9 }

/-- Witness for C9 at a concrete store and record: bookV survives the
round trip, bookW (still present after deleting bookV.id) has a
different id, and the double put collapses. -/
theorem c9_store_roundtrip_witness :
    bookV ∈ getAllBooks (put [bookW] bookV)
    ∧ bookW.id ≠ bookV.id
    ∧ put (put [bookW] bookV) bookV = put [bookW] bookV := by
  refine ⟨(c9_store_roundtrip [bookW] bookV).1, ?_, (c9_store_roundtrip [bookW] bookV).2.2⟩
  exact (c9_store_roundtrip [bookW] bookV).2.1 bookW (by decide)

/-! ## Library aggregator: variant grouping (groupedLibrary, src/App.tsx) -/

/-- Normalized identity key of a record:
`title.trim().toLowerCase() + "|" + author.trim().toLowerCase()`. -/
def normKey (b : Book) : String :=
  jsToLower (jsTrim b.title) ++ "|" ++ jsToLower (jsTrim b.author)

/-- One step of building the insertion-ordered `Map` of groups:
append the book to the bucket of its key, or add a new bucket at the
end (JS `Map` preserves insertion order and `set` on an existing key
keeps its position). -/
def upsertGroup : List (String × List Book) → String → Book →
    List (String × List Book)
  | [], k, b => [(k, [b])]
  | (k', g) :: rest, k, b =>
    if k' = k then (k', g ++ [b]) :: rest
    else (k', g) :: upsertGroup rest k b

/-- The grouped map, in insertion order. -/
def groupAssoc (books : List Book) : List (String × List Book) :=
  books.foldl (fun acc b => upsertGroup acc (normKey b) b) []

/-- Model of `groupedLibrary`: `Array.from(groups.values())`. -/
def groupedLibrary (books : List Book) : List (List Book) :=
  (groupAssoc books).map (fun p => p.2)

/-- Invariant of the grouping fold: keys are distinct, each bucket is
exactly the input-order filter of the processed prefix by its key, and
every processed record has its key present. -/
def GroupInv (pr : List Book) (acc : List (String × List Book)) : Prop :=
  (acc.map Prod.fst).Pairwise (fun a b => a ≠ b)
  ∧ (∀ k g, (k, g) ∈ acc → g = pr.filter (fun x => normKey x = k))
  ∧ (∀ x ∈ pr, normKey x ∈ acc.map Prod.fst)

theorem filter_single_ne {b : Book} {k : String} (h : normKey b ≠ k) :
    [b].filter (fun x => normKey x = k) = [] := by
  simp [List.filter, h]

theorem filter_single_self (b : Book) :
    [b].filter (fun x => normKey x = normKey b) = [b] := by
  simp [List.filter]

theorem upsert_eq_of_not_mem {acc : List (String × List Book)}
    {k : String} (b : Book) (hk : k ∉ acc.map Prod.fst) :
    upsertGroup acc k b = acc ++ [(k, [b])] := by
  induction acc with
  | nil => rfl
  | cons p rest ih =>
    obtain ⟨k', g⟩ := p
    simp only [List.map_cons, List.mem_cons] at hk
    push_neg at hk
    have hne : ¬ k' = k := fun hc => hk.1 hc.symm
    simp only [upsertGroup, if_neg hne, List.cons_append, List.cons.injEq,
      true_and]
    exact ih hk.2

theorem upsert_eq_of_split {l1 l2 : List (String × List Book)}
    {k : String} {g : List Book} (b : Book)
    (hk : k ∉ l1.map Prod.fst) :
    upsertGroup (l1 ++ (k, g) :: l2) k b = l1 ++ (k, g ++ [b]) :: l2 := by
  induction l1 with
  | nil => simp [upsertGroup]
  | cons p rest ih =>
    obtain ⟨k', g'⟩ := p
    simp only [List.map_cons, List.mem_cons] at hk
    push_neg at hk
    have hne : ¬ k' = k := fun hc => hk.1 hc.symm
    simp only [List.cons_append, upsertGroup, if_neg hne,
      List.cons.injEq, true_and]
    exact ih hk.2

theorem assoc_split {acc : List (String × List Book)} {k : String}
    (hk : k ∈ acc.map Prod.fst) :
    ∃ l1 g l2, acc = l1 ++ (k, g) :: l2 ∧ k ∉ l1.map Prod.fst := by
  induction acc with
  | nil => simp at hk
  | cons p rest ih =>
    obtain ⟨k', g'⟩ := p
    by_cases he : k' = k
    · subst he
      exact ⟨[], g', rest, rfl, by simp⟩
    · simp only [List.map_cons, List.mem_cons] at hk
      rcases hk with hk | hk
      · exact absurd hk.symm he
      · obtain ⟨l1, g, l2, rfl, hnot⟩ := ih hk
        refine ⟨(k', g') :: l1, g, l2, rfl, ?_⟩
        simp only [List.map_cons, List.mem_cons]
        push_neg
        exact ⟨fun hc => he hc.symm, hnot⟩

theorem groupInv_step {pr : List Book} {acc : List (String × List Book)}
    (h : GroupInv pr acc) (b : Book) :
    GroupInv (pr ++ [b]) (upsertGroup acc (normKey b) b) := by
  obtain ⟨hpw, hbk, hcm⟩ := h
  by_cases hk : normKey b ∈ acc.map Prod.fst
  · obtain ⟨l1, g, l2, rfl, hnot⟩ := assoc_split hk
    rw [upsert_eq_of_split b hnot]
    have hmapeq : ((l1 ++ (normKey b, g ++ [b]) :: l2).map Prod.fst) =
        ((l1 ++ (normKey b, g) :: l2).map Prod.fst) := by
      simp
    have hpwflat := hpw
    rw [List.map_append, List.map_cons, List.pairwise_append] at hpwflat
    refine ⟨by rw [hmapeq]; exact hpw, ?_, ?_⟩
    · intro k gk hp
      rw [List.mem_append, List.mem_cons] at hp
      rcases hp with hp | hp | hp
      · have hne : normKey b ≠ k := by
          have hin : k ∈ l1.map Prod.fst := by
            exact List.mem_map.mpr ⟨(k, gk), hp, rfl⟩
          exact fun hc => (hpwflat.2.2 k hin (normKey b) (by simp)) hc.symm
        rw [List.filter_append, filter_single_ne hne,
          ← hbk k gk (List.mem_append_left _ hp)]
        simp
      · rw [Prod.mk.injEq] at hp
        obtain ⟨hk1, hk2⟩ := hp
        subst hk1
        subst hk2
        rw [List.filter_append, filter_single_self,
          ← hbk (normKey b) g (by simp)]
      · have hne : normKey b ≠ k := by
          have hcons := hpwflat.2.1
          rw [List.pairwise_cons] at hcons
          exact hcons.1 k (List.mem_map.mpr ⟨(k, gk), hp, rfl⟩)
        rw [List.filter_append, filter_single_ne hne,
          ← hbk k gk (List.mem_append_right _ (List.mem_cons_of_mem _ hp))]
        simp
    · intro x hx
      rw [List.mem_append] at hx
      rw [hmapeq]
      rcases hx with hx | hx
      · exact hcm x hx
      · rw [List.mem_singleton] at hx
        subst hx
        exact hk
  · rw [upsert_eq_of_not_mem b hk]
    refine ⟨?_, ?_, ?_⟩
    · rw [List.map_append, List.pairwise_append]
      refine ⟨hpw, by simp, ?_⟩
      intro a ha c hc
      simp only [List.map_cons, List.map_nil, List.mem_singleton] at hc
      subst hc
      exact fun hc => hk (hc ▸ ha)
    · intro k gk hp
      rw [List.mem_append, List.mem_singleton] at hp
      rcases hp with hp | hp
      · have hne : normKey b ≠ k := by
          intro hc
          exact hk (hc ▸ List.mem_map.mpr ⟨(k, gk), hp, rfl⟩)
        rw [List.filter_append, filter_single_ne hne, ← hbk k gk hp]
        simp
      · rw [Prod.mk.injEq] at hp
        obtain ⟨hk1, hk2⟩ := hp
        subst hk1
        subst hk2
        have hnil : pr.filter (fun x => normKey x = normKey b) = [] := by
          rw [List.filter_eq_nil_iff]
          intro x hx
          simp only [decide_eq_true_eq]
          exact fun hc => hk (hc ▸ hcm x hx)
        rw [List.filter_append, hnil, filter_single_self]
        simp
    · intro x hx
      rw [List.mem_append] at hx
      rw [List.map_append]
      rcases hx with hx | hx
      · exact List.mem_append_left _ (hcm x hx)
      · rw [List.mem_singleton] at hx
        subst hx
        simp

theorem groupInv_fold (rest : List Book) :
    ∀ (pr : List Book) (acc : List (String × List Book)),
      GroupInv pr acc →
      GroupInv (pr ++ rest)
        (rest.foldl (fun a b => upsertGroup a (normKey b) b) acc) := by
  induction rest with
  | nil => intro pr acc h; simpa using h
  | cons b rest ih =>
    intro pr acc h
    have h1 := groupInv_step h b
    have h2 := ih (pr ++ [b]) _ h1
    simpa using h2

theorem groupAssoc_inv (books : List Book) :
    GroupInv books (groupAssoc books) := by
  have h0 : GroupInv ([] : List Book) [] := ⟨by simp, by simp, by simp⟩
  simpa [groupAssoc] using groupInv_fold books [] [] h0

/-- C4 (amended): two records land in the same BookGroup exactly when
their concatenated normalized keys
`title.trim().toLowerCase() + "|" + author.trim().toLowerCase()`
coincide (for titles and authors not containing "|" this is the same
as componentwise equality, but the key concatenation can conflate
distinct pairs, see the counterexample), and every group lists its
variants in input order (it is the input-order filter by its key). -/
theorem c4_grouping (books : List Book) :
    (∀ g ∈ groupedLibrary books,
        ∃ k, g = books.filter (fun x => normKey x = k))
    ∧ (∀ r1 ∈ books, ∀ r2 ∈ books,
        ((∃ g ∈ groupedLibrary books, r1 ∈ g ∧ r2 ∈ g) ↔
          normKey r1 = normKey r2)) := by
  obtain ⟨hpw, hbk, hcm⟩ := groupAssoc_inv books
  constructor
  · intro g hg
    rw [groupedLibrary, List.mem_map] at hg
    obtain ⟨⟨k, gk⟩, hp, he⟩ := hg
    exact ⟨k, he ▸ hbk k gk hp⟩
  · intro r1 h1 r2 h2
    constructor
    · rintro ⟨g, hg, hr1, hr2⟩
      rw [groupedLibrary, List.mem_map] at hg
      obtain ⟨⟨k, gk⟩, hp, he⟩ := hg
      have hfil := hbk k gk hp
      rw [← he, hfil] at hr1 hr2
      rw [List.mem_filter] at hr1 hr2
      have e1 : normKey r1 = k := by simpa using hr1.2
      have e2 : normKey r2 = k := by simpa using hr2.2
      exact e1.trans e2.symm
    · intro heq
      have hkm := hcm r1 h1
      rw [List.mem_map] at hkm
      obtain ⟨⟨k, gk⟩, hp, hke⟩ := hkm
      have hke' : k = normKey r1 := hke
      subst hke'
      refine ⟨gk, List.mem_map.mpr ⟨(normKey r1, gk), hp, rfl⟩, ?_, ?_⟩
      · rw [hbk _ gk hp, List.mem_filter]
        exact ⟨h1, by simp⟩
      · rw [hbk _ gk hp, List.mem_filter]
        exact ⟨h2, by simp [heq]⟩

/-- Records whose distinct (title, author) pairs collide on the
concatenated key: "a|b" + "|" + "c" = "a" + "|" + "b|c". -/
def cxBookP1 : Book := { baseBook with id := "p1", title := "a|b", author := "c" }

def cxBookP2 : Book := { baseBook with id := "p2", title := "a", author := "b|c" }

/-- Counterexample to C4 as stated: these two records are placed in
the same BookGroup although their normalized titles differ (and so do
their normalized authors), because the "|"-concatenated keys
coincide. -/
theorem c4_counterexample :
    (∃ g ∈ groupedLibrary [cxBookP1, cxBookP2],
        cxBookP1 ∈ g ∧ cxBookP2 ∈ g)
    ∧ jsToLower (jsTrim cxBookP1.title) ≠ jsToLower (jsTrim cxBookP2.title) := by
  decide

/-- Same logical book in two spellings for the C4 witness. -/
def cxBookW1 : Book := { baseBook with id := "q1", title := " Dune", author := "HERBERT" }

def cxBookW2 : Book := { baseBook with id := "q2", title := "dune ", author := "herbert" }

/-- Witness for C4: two records differing only in case and surrounding
whitespace share a BookGroup. -/
theorem c4_grouping_witness :
    cxBookW1 ∈ ([cxBookW1, cxBookW2] : List Book)
    ∧ (∃ g ∈ groupedLibrary [cxBookW1, cxBookW2],
        cxBookW1 ∈ g ∧ cxBookW2 ∈ g) :=
  ⟨by decide,
    ((c4_grouping [cxBookW1, cxBookW2]).2 cxBookW1 (by decide) cxBookW2
      (by decide)).mpr (by decide)⟩

/-! ## Library aggregator: group facets (uniqueGroups, src/App.tsx) -/

/-- One facet chip: a distinct group value with its display color and
member count. -/
structure GroupFacet where
  name : String
  color : Option String
  count : Nat
deriving DecidableEq, Repr

/-- Model of `b.groupColor || existing?.color` (JS: a falsy current
color keeps the previous one, a truthy one replaces it). -/
def newColor (b : Book) (old : Option String) : Option String :=
  match b.groupColor with
  | some c => if c = "" then old else some c
  | none => old

/-- One `map.set(b.group, { color: ..., count: existing.count + 1 })`
step: JS `Map.set` on an existing key keeps its position, a new key is
appended. -/
def upsertFacet : List GroupFacet → String → Book → List GroupFacet
  | [], s, b => [⟨s, newColor b none, 1⟩]
  | f :: rest, s, b =>
    if f.name = s then ⟨s, newColor b f.color, f.count + 1⟩ :: rest
    else f :: upsertFacet rest s b

/-- The facet map in insertion (discovery) order: records with a falsy
or blank-trimming `group` are skipped (`if (b.group && b.group.trim())`). -/
def facetAssoc (books : List Book) : List GroupFacet :=
  books.foldl
    (fun acc b =>
      match b.group with
      | some s => if s ≠ "" ∧ jsTrim s ≠ "" then upsertFacet acc s b else acc
      | none => acc) []

/-- The comparator relation of `.sort((a, b) => b[1].count - a[1].count)`:
an element stays before another when the comparator is nonpositive. -/
def facetRel (e f : GroupFacet) : Prop :=
  (f.count : Int) - (e.count : Int) ≤ 0

instance : DecidableRel facetRel := fun e f =>
  inferInstanceAs (Decidable ((f.count : Int) - (e.count : Int) ≤ 0))

instance : IsTotal GroupFacet facetRel :=
  ⟨fun a b => by unfold facetRel; omega⟩

instance : IsTrans GroupFacet facetRel :=
  ⟨fun a b c hab hbc => by unfold facetRel at *; omega⟩

/-- Model of `uniqueGroups`: the discovery-ordered facet map, stably
sorted by count descending. -/
def uniqueGroups (books : List Book) : List GroupFacet :=
  List.insertionSort facetRel (facetAssoc books)

/-- The most recently seen truthy groupColor of group `s` in `pr`. -/
def lastColor (pr : List Book) (s : String) : Option String :=
  ((pr.filter (fun b => b.group = some s && strTruthy b.groupColor)).getLast?).bind
    Book.groupColor

/-- Index of the first record carrying group `s`. -/
def firstIdx (pr : List Book) (s : String) : Nat :=
  pr.findIdx (fun b => b.group = some s)

/-- Invariant of the facet fold over the processed prefix `pr`. -/
def FacetInv (pr : List Book) (acc : List GroupFacet) : Prop :=
  (acc.map GroupFacet.name).Pairwise (fun a b => a ≠ b)
  ∧ (∀ e ∈ acc, (e.name ≠ "" ∧ jsTrim e.name ≠ "")
      ∧ e.count = (pr.filter (fun b => b.group = some e.name)).length
      ∧ e.color = lastColor pr e.name
      ∧ (∃ x ∈ pr, x.group = some e.name))
  ∧ (∀ x ∈ pr, ∀ s, x.group = some s → s ≠ "" → jsTrim s ≠ "" →
      s ∈ acc.map GroupFacet.name)
  ∧ (acc.map GroupFacet.name).Pairwise
      (fun s1 s2 => firstIdx pr s1 < firstIdx pr s2)

theorem upsertFacet_eq_of_not_mem {acc : List GroupFacet} {s : String}
    (b : Book) (hk : s ∉ acc.map GroupFacet.name) :
    upsertFacet acc s b = acc ++ [⟨s, newColor b none, 1⟩] := by
  induction acc with
  | nil => rfl
  | cons f rest ih =>
    simp only [List.map_cons, List.mem_cons] at hk
    push_neg at hk
    have hne : ¬ f.name = s := fun hc => hk.1 hc.symm
    simp only [upsertFacet, if_neg hne, List.cons_append, List.cons.injEq,
      true_and]
    exact ih hk.2

theorem upsertFacet_eq_of_split {l1 l2 : List GroupFacet} {s : String}
    {e : GroupFacet} (b : Book) (hs : e.name = s)
    (hk : s ∉ l1.map GroupFacet.name) :
    upsertFacet (l1 ++ e :: l2) s b =
      l1 ++ (⟨s, newColor b e.color, e.count + 1⟩ : GroupFacet) :: l2 := by
  induction l1 with
  | nil => simp [upsertFacet, hs]
  | cons f rest ih =>
    simp only [List.map_cons, List.mem_cons] at hk
    push_neg at hk
    have hne : ¬ f.name = s := fun hc => hk.1 hc.symm
    simp only [List.cons_append, upsertFacet, if_neg hne,
      List.cons.injEq, true_and]
    exact ih hk.2

theorem facet_split {acc : List GroupFacet} {s : String}
    (hk : s ∈ acc.map GroupFacet.name) :
    ∃ l1 e l2, acc = l1 ++ e :: l2 ∧ e.name = s
      ∧ s ∉ l1.map GroupFacet.name := by
  induction acc with
  | nil => simp at hk
  | cons f rest ih =>
    by_cases he : f.name = s
    · exact ⟨[], f, rest, rfl, he, by simp⟩
    · simp only [List.map_cons, List.mem_cons] at hk
      rcases hk with hk | hk
      · exact absurd hk.symm he
      · obtain ⟨l1, e, l2, rfl, hes, hnot⟩ := ih hk
        refine ⟨f :: l1, e, l2, rfl, hes, ?_⟩
        simp only [List.map_cons, List.mem_cons]
        push_neg
        exact ⟨fun hc => he hc.symm, hnot⟩

theorem count_snoc_ne {pr : List Book} {b : Book} {s : String}
    (h : ¬ b.group = some s) :
    ((pr ++ [b]).filter (fun x => x.group = some s)).length =
      (pr.filter (fun x => x.group = some s)).length := by
  rw [List.filter_append]
  simp [List.filter, h]

theorem count_snoc_eq {pr : List Book} {b : Book} {s : String}
    (h : b.group = some s) :
    ((pr ++ [b]).filter (fun x => x.group = some s)).length =
      (pr.filter (fun x => x.group = some s)).length + 1 := by
  rw [List.filter_append]
  simp [List.filter, h]

theorem lastColor_snoc_false {pr : List Book} {b : Book} {s : String}
    (h : (decide (b.group = some s) && strTruthy b.groupColor) = false) :
    lastColor (pr ++ [b]) s = lastColor pr s := by
  unfold lastColor
  rw [List.filter_append]
  have hb : [b].filter
      (fun x => x.group = some s && strTruthy x.groupColor) = [] := by
    simp only [List.filter, h]
  rw [hb, List.append_nil]

theorem lastColor_snoc_true {pr : List Book} {b : Book} {s : String}
    (h1 : b.group = some s) (h2 : strTruthy b.groupColor = true) :
    lastColor (pr ++ [b]) s = b.groupColor := by
  unfold lastColor
  rw [List.filter_append]
  have hb : [b].filter
      (fun x => x.group = some s && strTruthy x.groupColor) = [b] := by
    simp only [List.filter, h1, h2]
    simp
  rw [hb, List.getLast?_concat]
  rfl

theorem lastColor_nil_of_no_group {pr : List Book} {s : String}
    (h : ∀ x ∈ pr, ¬ x.group = some s) : lastColor pr s = none := by
  unfold lastColor
  have : pr.filter (fun x => x.group = some s && strTruthy x.groupColor) = [] := by
    rw [List.filter_eq_nil_iff]
    intro x hx
    simp [h x hx]
  rw [this]
  rfl

theorem newColor_truthy {b : Book} (old : Option String)
    (h : strTruthy b.groupColor = true) : newColor b old = b.groupColor := by
  unfold newColor
  unfold strTruthy at h
  cases hg : b.groupColor with
  | none => rw [hg] at h; cases h
  | some c =>
    rw [hg] at h
    simp only [Bool.not_eq_true'] at h
    have : ¬ c = "" := by simpa using h
    simp [this]

theorem newColor_falsy {b : Book} (old : Option String)
    (h : strTruthy b.groupColor = false) : newColor b old = old := by
  unfold newColor
  unfold strTruthy at h
  cases hg : b.groupColor with
  | none => rfl
  | some c =>
    rw [hg] at h
    simp only [Bool.not_eq_false'] at h
    have : c = "" := by simpa using h
    simp [this]

theorem firstIdx_snoc_found {pr : List Book} (b : Book) {s : String}
    (h : ∃ x ∈ pr, x.group = some s) :
    firstIdx (pr ++ [b]) s = firstIdx pr s := by
  unfold firstIdx
  rw [List.findIdx_append]
  rw [if_pos (List.findIdx_lt_length_of_exists (by simpa using h))]

theorem firstIdx_lt_length {pr : List Book} {s : String}
    (h : ∃ x ∈ pr, x.group = some s) : firstIdx pr s < pr.length :=
  List.findIdx_lt_length_of_exists (by simpa using h)

theorem firstIdx_snoc_new {pr : List Book} {b : Book} {s : String}
    (hnone : ∀ x ∈ pr, ¬ x.group = some s) (hb : b.group = some s) :
    firstIdx (pr ++ [b]) s = pr.length := by
  unfold firstIdx
  rw [List.findIdx_append]
  have hlt : ¬ (pr.findIdx (fun x => x.group = some s) < pr.length) := by
    rw [List.findIdx_lt_length]
    push_neg
    intro x hx
    simp [hnone x hx]
  rw [if_neg hlt]
  have h0 : List.findIdx (fun x => decide (x.group = some s)) [b] = 0 := by
    simp [List.findIdx_cons, hb]
  rw [h0]
  omega

theorem facetInv_skip {pr : List Book} {acc : List GroupFacet} {b : Book}
    (h : FacetInv pr acc)
    (hne : ∀ e ∈ acc, ¬ b.group = some e.name)
    (hnq : ∀ s, b.group = some s → ¬ (s ≠ "" ∧ jsTrim s ≠ "")) :
    FacetInv (pr ++ [b]) acc := by
  obtain ⟨hpw, hent, hcm, hfi⟩ := h
  refine ⟨hpw, ?_, ?_, ?_⟩
  · intro e he
    obtain ⟨hq, hcnt, hcol, hex⟩ := hent e he
    refine ⟨hq, ?_, ?_, ?_⟩
    · rw [count_snoc_ne (hne e he)]
      exact hcnt
    · rw [lastColor_snoc_false (by simp [hne e he])]
      exact hcol
    · obtain ⟨x, hx, hxe⟩ := hex
      exact ⟨x, List.mem_append_left _ hx, hxe⟩
  · intro x hx s hxs h1 h2
    rw [List.mem_append] at hx
    rcases hx with hx | hx
    · exact hcm x hx s hxs h1 h2
    · rw [List.mem_singleton] at hx
      subst hx
      exact absurd ⟨h1, h2⟩ (hnq s hxs)
  · apply List.Pairwise.imp_of_mem ?_ hfi
    intro s1 s2 hs1 hs2 hlt
    have e1 : ∃ x ∈ pr, x.group = some s1 := by
      rw [List.mem_map] at hs1
      obtain ⟨e, he, hee⟩ := hs1
      obtain ⟨_, _, _, hex⟩ := hent e he
      exact hee ▸ hex
    have e2 : ∃ x ∈ pr, x.group = some s2 := by
      rw [List.mem_map] at hs2
      obtain ⟨e, he, hee⟩ := hs2
      obtain ⟨_, _, _, hex⟩ := hent e he
      exact hee ▸ hex
    rw [firstIdx_snoc_found b e1, firstIdx_snoc_found b e2]
    exact hlt

theorem facetInv_step {pr : List Book} {acc : List GroupFacet}
    (h : FacetInv pr acc) (b : Book) :
    FacetInv (pr ++ [b])
      (match b.group with
       | some s => if s ≠ "" ∧ jsTrim s ≠ "" then upsertFacet acc s b else acc
       | none => acc) := by
  obtain ⟨hpw, hent, hcm, hfi⟩ := h
  cases hg : b.group with
  | none =>
    exact facetInv_skip ⟨hpw, hent, hcm, hfi⟩
      (fun e _ => by rw [hg]; simp) (fun s hs => by rw [hg] at hs; cases hs)
  | some s =>
    show FacetInv (pr ++ [b])
      (if s ≠ "" ∧ jsTrim s ≠ "" then upsertFacet acc s b else acc)
    by_cases hq : s ≠ "" ∧ jsTrim s ≠ ""
    · rw [if_pos hq]
      by_cases hks : s ∈ acc.map GroupFacet.name
      · -- the key is already present: in-place replacement
        obtain ⟨l1, e, l2, rfl, hes, hnot⟩ := facet_split hks
        rw [upsertFacet_eq_of_split b hes hnot]
        have hex_s : ∃ x ∈ pr, x.group = some s := by
          obtain ⟨_, _, _, hex⟩ := hent e (by simp)
          exact hes ▸ hex
        have hmapeq :
            ((l1 ++ (⟨s, newColor b e.color, e.count + 1⟩ : GroupFacet) :: l2).map
              GroupFacet.name) =
            ((l1 ++ e :: l2).map GroupFacet.name) := by
          simp [hes]
        have hpwflat := hpw
        rw [List.map_append, List.map_cons, List.pairwise_append] at hpwflat
        refine ⟨by rw [hmapeq]; exact hpw, ?_, ?_, ?_⟩
        · intro f hf
          rw [List.mem_append, List.mem_cons] at hf
          rcases hf with hf | hf | hf
          · have hne : f.name ≠ s := by
              have hin : f.name ∈ l1.map GroupFacet.name :=
                List.mem_map.mpr ⟨f, hf, rfl⟩
              exact fun hc => hnot (hc ▸ hin)
            obtain ⟨hq', hcnt, hcol, hex⟩ :=
              hent f (List.mem_append_left _ hf)
            have hbne : ¬ b.group = some f.name := by
              rw [hg]
              exact fun hc => hne (Option.some.injEq _ _ ▸ hc).symm
            refine ⟨hq', ?_, ?_, ?_⟩
            · rw [count_snoc_ne hbne]; exact hcnt
            · rw [lastColor_snoc_false (by simp [hbne])]; exact hcol
            · obtain ⟨x, hx, hxe⟩ := hex
              exact ⟨x, List.mem_append_left _ hx, hxe⟩
          · subst hf
            refine ⟨⟨hq.1, hq.2⟩, ?_, ?_, ?_⟩
            · obtain ⟨_, hcnt, _, _⟩ := hent e (by simp)
              have : b.group = some s := hg
              rw [count_snoc_eq this]
              rw [hes] at hcnt
              exact congrArg (· + 1) hcnt
            · cases ht : strTruthy b.groupColor with
              | true =>
                rw [lastColor_snoc_true hg ht]
                exact newColor_truthy e.color ht
              | false =>
                rw [lastColor_snoc_false (by simp [ht])]
                obtain ⟨_, _, hcol, _⟩ := hent e (by simp)
                rw [hes] at hcol
                simpa using (newColor_falsy e.color ht).trans hcol
            · exact ⟨b, List.mem_append_right _ (by simp), hg⟩
          · have hne : f.name ≠ s := by
              have hcons := hpwflat.2.1
              rw [List.pairwise_cons] at hcons
              have := hcons.1 f.name (List.mem_map.mpr ⟨f, hf, rfl⟩)
              exact fun hc => this (hes ▸ hc.symm)
            obtain ⟨hq', hcnt, hcol, hex⟩ :=
              hent f (List.mem_append_right _ (List.mem_cons_of_mem _ hf))
            have hbne : ¬ b.group = some f.name := by
              rw [hg]
              exact fun hc => hne (Option.some.injEq _ _ ▸ hc).symm
            refine ⟨hq', ?_, ?_, ?_⟩
            · rw [count_snoc_ne hbne]; exact hcnt
            · rw [lastColor_snoc_false (by simp [hbne])]; exact hcol
            · obtain ⟨x, hx, hxe⟩ := hex
              exact ⟨x, List.mem_append_left _ hx, hxe⟩
        · intro x hx s' hxs h1 h2
          rw [List.mem_append] at hx
          rw [hmapeq]
          rcases hx with hx | hx
          · exact hcm x hx s' hxs h1 h2
          · rw [List.mem_singleton] at hx
            subst hx
            rw [hg] at hxs
            have : s' = s := by
              have := hxs
              simp at this
              exact this.symm
            subst this
            exact hks
        · rw [hmapeq]
          apply List.Pairwise.imp_of_mem ?_ hfi
          intro s1 s2 hs1 hs2 hlt
          have e1 : ∃ x ∈ pr, x.group = some s1 := by
            rw [List.mem_map] at hs1
            obtain ⟨f, hf, hfe⟩ := hs1
            obtain ⟨_, _, _, hex⟩ := hent f hf
            exact hfe ▸ hex
          have e2 : ∃ x ∈ pr, x.group = some s2 := by
            rw [List.mem_map] at hs2
            obtain ⟨f, hf, hfe⟩ := hs2
            obtain ⟨_, _, _, hex⟩ := hent f hf
            exact hfe ▸ hex
          rw [firstIdx_snoc_found b e1, firstIdx_snoc_found b e2]
          exact hlt
      · -- new key: appended at the end
        rw [upsertFacet_eq_of_not_mem b hks]
        have hfresh : ∀ x ∈ pr, ¬ x.group = some s := by
          intro x hx hc
          exact hks (hcm x hx s hc hq.1 hq.2)
        refine ⟨?_, ?_, ?_, ?_⟩
        · rw [List.map_append, List.pairwise_append]
          refine ⟨hpw, by simp, ?_⟩
          intro a ha c hc
          simp only [List.map_cons, List.map_nil, List.mem_singleton] at hc
          subst hc
          exact fun hc => hks (hc ▸ ha)
        · intro f hf
          rw [List.mem_append, List.mem_singleton] at hf
          rcases hf with hf | hf
          · have hne : f.name ≠ s := by
              intro hc
              exact hks (hc ▸ List.mem_map.mpr ⟨f, hf, rfl⟩)
            obtain ⟨hq', hcnt, hcol, hex⟩ := hent f hf
            have hbne : ¬ b.group = some f.name := by
              rw [hg]
              exact fun hc => hne (Option.some.injEq _ _ ▸ hc).symm
            refine ⟨hq', ?_, ?_, ?_⟩
            · rw [count_snoc_ne hbne]; exact hcnt
            · rw [lastColor_snoc_false (by simp [hbne])]; exact hcol
            · obtain ⟨x, hx, hxe⟩ := hex
              exact ⟨x, List.mem_append_left _ hx, hxe⟩
          · subst hf
            refine ⟨⟨hq.1, hq.2⟩, ?_, ?_, ?_⟩
            · have hnil : pr.filter (fun x => x.group = some s) = [] := by
                rw [List.filter_eq_nil_iff]
                intro x hx
                simpa using hfresh x hx
              rw [count_snoc_eq hg, hnil]
              rfl
            · cases ht : strTruthy b.groupColor with
              | true =>
                rw [lastColor_snoc_true hg ht]
                exact newColor_truthy none ht
              | false =>
                rw [lastColor_snoc_false (by simp [ht])]
                rw [lastColor_nil_of_no_group hfresh]
                exact newColor_falsy none ht
            · exact ⟨b, List.mem_append_right _ (by simp), hg⟩
        · intro x hx s' hxs h1 h2
          rw [List.mem_append] at hx
          rw [List.map_append]
          rcases hx with hx | hx
          · exact List.mem_append_left _ (hcm x hx s' hxs h1 h2)
          · rw [List.mem_singleton] at hx
            subst hx
            rw [hg] at hxs
            have : s' = s := by
              have := hxs
              simp at this
              exact this.symm
            subst this
            simp
        · rw [List.map_append, List.pairwise_append]
          refine ⟨?_, by simp, ?_⟩
          · apply List.Pairwise.imp_of_mem ?_ hfi
            intro s1 s2 hs1 hs2 hlt
            have e1 : ∃ x ∈ pr, x.group = some s1 := by
              rw [List.mem_map] at hs1
              obtain ⟨f, hf, hfe⟩ := hs1
              obtain ⟨_, _, _, hex⟩ := hent f hf
              exact hfe ▸ hex
            have e2 : ∃ x ∈ pr, x.group = some s2 := by
              rw [List.mem_map] at hs2
              obtain ⟨f, hf, hfe⟩ := hs2
              obtain ⟨_, _, _, hex⟩ := hent f hf
              exact hfe ▸ hex
            rw [firstIdx_snoc_found b e1, firstIdx_snoc_found b e2]
            exact hlt
          · intro s1 hs1 s2 hs2
            simp only [List.map_cons, List.map_nil, List.mem_singleton] at hs2
            subst hs2
            have e1 : ∃ x ∈ pr, x.group = some s1 := by
              rw [List.mem_map] at hs1
              obtain ⟨f, hf, hfe⟩ := hs1
              obtain ⟨_, _, _, hex⟩ := hent f hf
              exact hfe ▸ hex
            rw [firstIdx_snoc_found b e1, firstIdx_snoc_new hfresh hg]
            exact firstIdx_lt_length e1
    · rw [if_neg hq]
      refine facetInv_skip ⟨hpw, hent, hcm, hfi⟩ ?_ ?_
      · intro e he hc
        rw [hg] at hc
        have hse : s = e.name := by simpa using hc
        obtain ⟨⟨h1, h2⟩, _, _, _⟩ := hent e he
        exact hq ⟨hse ▸ h1, hse ▸ h2⟩
      · intro s' hs'
        rw [hg] at hs'
        have : s' = s := by simpa using hs'.symm
        subst this
        exact hq

theorem facetInv_fold (rest : List Book) :
    ∀ (pr : List Book) (acc : List GroupFacet), FacetInv pr acc →
      FacetInv (pr ++ rest)
        (rest.foldl
          (fun acc b =>
            match b.group with
            | some s =>
              if s ≠ "" ∧ jsTrim s ≠ "" then upsertFacet acc s b else acc
            | none => acc) acc) := by
  induction rest with
  | nil => intro pr acc h; simpa using h
  | cons b rest ih =>
    intro pr acc h
    have h1 := facetInv_step h b
    have h2 := ih (pr ++ [b]) _ h1
    simpa using h2

theorem facetAssoc_inv (books : List Book) :
    FacetInv books (facetAssoc books) := by
  have h0 : FacetInv ([] : List Book) [] := ⟨by simp, by simp, by simp, by simp⟩
  simpa [facetAssoc] using facetInv_fold books [] [] h0

/-! ### Stability helpers for stable sorts -/

theorem mem_pair_sublist {α : Type _} {l : List α} {a b : α}
    (ha : a ∈ l) (hb : b ∈ l) (hne : a ≠ b) :
    List.Sublist [a, b] l ∨ List.Sublist [b, a] l := by
  induction l with
  | nil => cases ha
  | cons x xs ih =>
    rcases List.mem_cons.mp ha with rfl | ha'
    · rcases List.mem_cons.mp hb with rfl | hb'
      · exact absurd rfl hne
      · exact Or.inl ((List.singleton_sublist.mpr hb').cons₂ a)
    · rcases List.mem_cons.mp hb with rfl | hb'
      · exact Or.inr ((List.singleton_sublist.mpr ha').cons₂ b)
      · rcases ih ha' hb' with h | h
        · exact Or.inl (h.cons x)
        · exact Or.inr (h.cons x)

theorem pair_sublist_get {α : Type _} {l : List α} {a b : α}
    (h : List.Sublist [a, b] l) :
    ∃ (i j : Nat) (hi : i < l.length) (hj : j < l.length), i < j ∧
      l.get ⟨i, hi⟩ = a ∧ l.get ⟨j, hj⟩ = b := by
  induction l with
  | nil => exact absurd (List.sublist_nil.mp h) (by simp)
  | cons x xs ih =>
    cases h with
    | cons _ h' =>
      obtain ⟨i, j, hi, hj, hij, hga, hgb⟩ := ih h'
      exact ⟨i + 1, j + 1, Nat.succ_lt_succ hi, Nat.succ_lt_succ hj,
        Nat.succ_lt_succ hij, by simpa using hga, by simpa using hgb⟩
    | cons₂ _ h' =>
      have hbm : b ∈ xs := h'.subset (by simp)
      obtain ⟨⟨j, hj⟩, hje⟩ := List.mem_iff_get.mp hbm
      exact ⟨0, j + 1, by simp, Nat.succ_lt_succ hj, Nat.succ_pos j, rfl,
        by simpa using hje⟩

theorem facet_get_name_inj {l : List GroupFacet}
    (h : (l.map GroupFacet.name).Pairwise (fun a b => a ≠ b))
    {i j : Fin l.length} (he : (l.get i).name = (l.get j).name) : i = j := by
  by_contra hne
  have hpg := List.pairwise_iff_get.mp h
  rcases Nat.lt_trichotomy i.val j.val with hlt | heq | hgt
  · have := hpg ⟨i.val, by simpa using i.isLt⟩ ⟨j.val, by simpa using j.isLt⟩
      (by simpa using hlt)
    simp only [List.get_map] at this
    exact this (by simpa using he)
  · exact hne (Fin.ext heq)
  · have := hpg ⟨j.val, by simpa using j.isLt⟩ ⟨i.val, by simpa using i.isLt⟩
      (by simpa using hgt)
    simp only [List.get_map] at this
    exact this (by simpa using he.symm)

/-- C8 (amended): the facet list has exactly one entry per distinct
group value that is non-blank (non-empty after trimming — a
whitespace-only group value is skipped, see the counterexample), each
entry carries the member count of that exact group string and its most
recently seen truthy groupColor, and entries are ordered by count
descending with ties kept in discovery order. -/
theorem c8_group_facets (books : List Book) :
    (∀ s : String,
        ((∃ e ∈ uniqueGroups books, e.name = s) ↔
          ((∃ b ∈ books, b.group = some s) ∧ s ≠ "" ∧ jsTrim s ≠ "")))
    ∧ ((uniqueGroups books).map GroupFacet.name).Pairwise (fun a b => a ≠ b)
    ∧ (∀ e ∈ uniqueGroups books,
        e.count = (books.filter (fun b => b.group = some e.name)).length
        ∧ e.color = lastColor books e.name)
    ∧ (∀ i j : Fin (uniqueGroups books).length, i < j →
        ((uniqueGroups books).get j).count ≤ ((uniqueGroups books).get i).count
        ∧ (((uniqueGroups books).get j).count =
              ((uniqueGroups books).get i).count →
            firstIdx books ((uniqueGroups books).get i).name <
              firstIdx books ((uniqueGroups books).get j).name)) := by
  obtain ⟨hpw, hent, hcm, hfi⟩ := facetAssoc_inv books
  have hperm : (uniqueGroups books).Perm (facetAssoc books) :=
    List.perm_insertionSort facetRel _
  have hnames : ((uniqueGroups books).map GroupFacet.name).Pairwise
      (fun a b => a ≠ b) := by
    have h1 : ((uniqueGroups books).map GroupFacet.name).Perm
        ((facetAssoc books).map GroupFacet.name) := hperm.map _
    exact (List.Perm.nodup_iff h1).mpr hpw
  have hsorted : (uniqueGroups books).Pairwise facetRel :=
    List.sorted_insertionSort facetRel _
  refine ⟨?_, hnames, ?_, ?_⟩
  · intro s
    constructor
    · rintro ⟨e, he, rfl⟩
      obtain ⟨hq, _, _, hex⟩ := hent e (hperm.mem_iff.mp he)
      exact ⟨hex, hq.1, hq.2⟩
    · rintro ⟨⟨b, hb, hbs⟩, h1, h2⟩
      have hs := hcm b hb s hbs h1 h2
      rw [List.mem_map] at hs
      obtain ⟨e, he, hee⟩ := hs
      exact ⟨e, hperm.mem_iff.mpr he, hee⟩
  · intro e he
    obtain ⟨_, hcnt, hcol, _⟩ := hent e (hperm.mem_iff.mp he)
    exact ⟨hcnt, hcol⟩
  · intro i j hij
    have hrel : facetRel ((uniqueGroups books).get i)
        ((uniqueGroups books).get j) :=
      List.pairwise_iff_get.mp hsorted i j hij
    have hcle : ((uniqueGroups books).get j).count ≤
        ((uniqueGroups books).get i).count := by
      unfold facetRel at hrel
      omega
    refine ⟨hcle, ?_⟩
    intro hceq
    set e := (uniqueGroups books).get i with hei
    set f := (uniqueGroups books).get j with hfj
    have hne_name : e.name ≠ f.name := by
      intro hc
      have := facet_get_name_inj hnames (i := i) (j := j) hc
      rw [this] at hij
      exact lt_irrefl _ hij
    have hne : e ≠ f := fun hc => hne_name (congrArg GroupFacet.name hc)
    have hea : e ∈ facetAssoc books :=
      hperm.mem_iff.mp (List.get_mem _ i.val i.isLt)
    have hfa : f ∈ facetAssoc books :=
      hperm.mem_iff.mp (List.get_mem _ j.val j.isLt)
    rcases mem_pair_sublist hea hfa hne with hsub | hsub
    · -- e appears before f in discovery order
      have hmap : List.Sublist ([e.name, f.name])
          ((facetAssoc books).map GroupFacet.name) := by
        simpa using hsub.map GroupFacet.name
      have := (hfi.sublist hmap)
      rw [List.pairwise_cons] at this
      exact this.1 f.name (by simp)
    · -- f before e would contradict stability of the sort
      exfalso
      have hpair : List.Pairwise facetRel [f, e] := by
        rw [List.pairwise_cons]
        refine ⟨?_, by simp⟩
        intro x hx
        rw [List.mem_singleton] at hx
        subst hx
        unfold facetRel
        omega
      have hout : List.Sublist [f, e] (uniqueGroups books) :=
        List.sublist_insertionSort hpair hsub
      obtain ⟨p, q, hp, hq, hpq, hgp, hgq⟩ := pair_sublist_get hout
      have hpj : (⟨p, hp⟩ : Fin (uniqueGroups books).length) = j :=
        facet_get_name_inj hnames (by rw [hgp, hfj])
      have hqi : (⟨q, hq⟩ : Fin (uniqueGroups books).length) = i :=
        facet_get_name_inj hnames (by rw [hgq, hei])
      have : j.val < i.val := by
        have h1 : p = j.val := congrArg Fin.val hpj
        have h2 : q = i.val := congrArg Fin.val hqi
        omega
      have : i.val < j.val := hij
      omega

/-- Record with a whitespace-only (non-empty but blank) group value. -/
def cxBookS : Book :=
  { baseBook with id := "s1", group := some " ", groupColor := some "#123" }

/-- Counterexample to C8 as stated: the group value " " is non-empty,
so the claim demands one facet entry for it, but the code's
`b.group.trim()` test skips it and the facet list is empty. -/
theorem c8_counterexample :
    uniqueGroups [cxBookS] = []
    ∧ cxBookS.group = some " " ∧ (" " : String) ≠ "" := by
  decide

/-- Demo records for the C8 witness. -/
def demoB1 : Book :=
  { baseBook with id := "d1", group := some "A", groupColor := some "#a1" }

def demoB2 : Book := { baseBook with id := "d2", group := some "B" }

def demoB3 : Book :=
  { baseBook with id := "d3", group := some "B", groupColor := some "#b1" }

def demoFacetBooks : List Book := [demoB1, demoB2, demoB3]

/-- Witness for C8: the group "B" with two members is present among
the facets of a concrete record list. -/
theorem c8_group_facets_witness :
    ((∃ b ∈ demoFacetBooks, b.group = some "B")
      ∧ ("B" : String) ≠ "" ∧ jsTrim "B" ≠ "")
    ∧ (∃ e ∈ uniqueGroups demoFacetBooks, e.name = "B") :=
  ⟨⟨⟨demoB2, by decide, by decide⟩, by decide, by decide⟩,
   ((c8_group_facets demoFacetBooks).1 "B").mpr
     ⟨⟨demoB2, by decide, by decide⟩, by decide, by decide⟩⟩

/-! ## Sort comparators (filteredAndSortedGroups, src/App.tsx) -/

/-- ASCII lower-cased code point, the `sensitivity: 'base'` model. -/
def lowerCode (c : Char) : Nat :=
  if 65 ≤ c.toNat ∧ c.toNat ≤ 90 then c.toNat + 32 else c.toNat

/-- Numeric value of a digit run. -/
def digitsVal (cs : List Char) : Nat :=
  cs.foldl (fun n c => 10 * n + (c.toNat - 48)) 0

/-- A token of the natural-sort key: a digit run becomes its numeric
value, any other run its lower-cased code points. -/
def natTok (cs : List Char) : Nat ⊕ List Nat :=
  match cs with
  | [] => Sum.inr []
  | c :: _ =>
    if c.isDigit then Sum.inl (digitsVal cs) else Sum.inr (cs.map lowerCode)

/-- Natural-sort key of a string: maximal digit / non-digit runs. -/
def natKey (s : String) : List (Nat ⊕ List Nat) :=
  (s.data.splitBy (fun a b => a.isDigit == b.isDigit)).map natTok

/-- Comparator on natural-sort tokens: numbers sort before text. -/
def tokCmp : (Nat ⊕ List Nat) → (Nat ⊕ List Nat) → Ordering :=
  sumCmp cmpNat (listCmp cmpNat)

/-- Model of `a.localeCompare(b, undefined, { numeric: true,
sensitivity: 'base' })`. -/
def natCmp (s t : String) : Ordering :=
  listCmp tokCmp (natKey s) (natKey t)

theorem tokCmp_law : LawCmp tokCmp :=
  LawCmp.sumCmp_law LawCmp.cmpNat_law (LawCmp.listCmp_law LawCmp.cmpNat_law)

theorem natKeyCmp_law : LawCmp (listCmp tokCmp) :=
  LawCmp.listCmp_law tokCmp_law

/-- A JS comparator verdict as a number. -/
def ordInt : Ordering → Int
  | .lt => -1
  | .eq => 0
  | .gt => 1

theorem ordInt_le_zero (o : Ordering) : ordInt o ≤ 0 ↔ o ≠ .gt := by
  cases o <;> simp [ordInt]

/-- Representative of a group: `group[0]` (groups are nonempty). -/
def rep (g : List Book) : Book := g.headI

/-- The `series` sort comparator of `filteredAndSortedGroups`. -/
def seriesCmp (a b : Book) : Int :=
  let sA := jsStr a.seriesTitle
  let sB := jsStr b.seriesTitle
  if sA = "" ∧ sB ≠ "" then 1
  else if sA ≠ "" ∧ sB = "" then -1
  else if sA = "" ∧ sB = "" then ordInt (localeCmp a.title b.title)
  else
    let t := ordInt (natCmp sA sB)
    if t ≠ 0 then t
    else ordInt (natCmp (jsStr a.seriesIndex) (jsStr b.seriesIndex))

/-- The sort key the series comparator implements: series-bearing
groups (by natural keys of title then index) before series-less groups
(by title code points). -/
def skey (b : Book) :
    ((List (Nat ⊕ List Nat)) × (List (Nat ⊕ List Nat))) ⊕ List Nat :=
  if jsStr b.seriesTitle = "" then Sum.inr (rawCodes b.title)
  else Sum.inl (natKey (jsStr b.seriesTitle), natKey (jsStr b.seriesIndex))

def skeyCmp :
    (((List (Nat ⊕ List Nat)) × (List (Nat ⊕ List Nat))) ⊕ List Nat) →
    (((List (Nat ⊕ List Nat)) × (List (Nat ⊕ List Nat))) ⊕ List Nat) →
    Ordering :=
  sumCmp (prodCmp (listCmp tokCmp) (listCmp tokCmp)) (listCmp cmpNat)

theorem skeyCmp_law : LawCmp skeyCmp :=
  LawCmp.sumCmp_law (LawCmp.prodCmp_law natKeyCmp_law natKeyCmp_law)
    (LawCmp.listCmp_law LawCmp.cmpNat_law)

theorem seriesCmp_key_aux (t1 t2 i1 i2 : List (Nat ⊕ List Nat)) :
    (if ordInt (listCmp tokCmp t1 t2) ≠ 0 then ordInt (listCmp tokCmp t1 t2)
     else ordInt (listCmp tokCmp i1 i2)) =
    ordInt (skeyCmp (Sum.inl (t1, i1)) (Sum.inl (t2, i2))) := by
  have hred : skeyCmp (Sum.inl (t1, i1)) (Sum.inl (t2, i2)) =
      match listCmp tokCmp t1 t2 with
      | .eq => listCmp tokCmp i1 i2
      | o => o := rfl
  rw [hred]
  cases h : listCmp tokCmp t1 t2 <;> simp [ordInt]

theorem seriesCmp_eq_key (a b : Book) :
    seriesCmp a b = ordInt (skeyCmp (skey a) (skey b)) := by
  unfold seriesCmp skey
  dsimp only
  by_cases hA : jsStr a.seriesTitle = ""
  · by_cases hB : jsStr b.seriesTitle = ""
    · rw [if_neg (fun hc => hc.2 hB), if_neg (fun hc => hc.1 hA),
        if_pos (And.intro hA hB), if_pos hA, if_pos hB]
      rfl
    · rw [if_pos (And.intro hA hB), if_pos hA, if_neg hB]
      rfl
  · by_cases hB : jsStr b.seriesTitle = ""
    · rw [if_neg (fun hc => hA hc.1), if_pos (And.intro hA hB),
        if_neg hA, if_pos hB]
      rfl
    · rw [if_neg (fun hc => hA hc.1), if_neg (fun hc => hB hc.2),
        if_neg (fun hc => hA hc.1), if_neg hA, if_neg hB]
      exact seriesCmp_key_aux _ _ _ _

/-- The stable-sort relation of the `series` comparator: a group may
stay before another when the comparator is nonpositive. -/
def seriesRel (g h : List Book) : Prop := seriesCmp (rep g) (rep h) ≤ 0

instance : DecidableRel seriesRel := fun g h =>
  inferInstanceAs (Decidable (seriesCmp (rep g) (rep h) ≤ 0))

theorem seriesRel_iff (g h : List Book) :
    seriesRel g h ↔ skeyCmp (skey (rep g)) (skey (rep h)) ≠ .gt := by
  unfold seriesRel
  rw [seriesCmp_eq_key]
  exact ordInt_le_zero _

instance : IsTotal (List Book) seriesRel :=
  ⟨fun g h => by
    rw [seriesRel_iff, seriesRel_iff]
    exact skeyCmp_law.le_total _ _⟩

instance : IsTrans (List Book) seriesRel :=
  ⟨fun g h k hab hbc => by
    rw [seriesRel_iff] at *
    exact skeyCmp_law.le_trans hab hbc⟩

/-- Sorting under sort key `series`. -/
def sortSeries (gs : List (List Book)) : List (List Book) :=
  List.insertionSort seriesRel gs

/-- The three groups of the spec example. -/
def exBookG1 : Book :=
  { baseBook with
    id := "e1", title := "T1",
    seriesTitle := some "Alpha", seriesIndex := some "2" }

def exBookG2 : Book :=
  { baseBook with
    id := "e2", title := "T2",
    seriesTitle := some "Alpha", seriesIndex := some "10" }

def exBookG3 : Book := { baseBook with id := "e3", title := "T3" }

def exSeriesInput : List (List Book) := [[exBookG2], [exBookG3], [exBookG1]]

/-- C5: under sort key `series`, series-less groups never precede
series-bearing ones; among series-bearing groups the order is the
natural (numeric-aware, case-insensitive) order of (seriesTitle,
seriesIndex) with absent index read as ""; among series-less groups
the order is by title; and the spec example sorts as [G1, G2, G3]
("2" before "10" numerically). -/
theorem c5_series_sort (gs : List (List Book)) :
    (∀ i j : Fin (sortSeries gs).length, i < j →
      (¬ (jsStr (rep ((sortSeries gs).get i)).seriesTitle = ""
          ∧ jsStr (rep ((sortSeries gs).get j)).seriesTitle ≠ ""))
      ∧ (jsStr (rep ((sortSeries gs).get i)).seriesTitle ≠ "" →
          jsStr (rep ((sortSeries gs).get j)).seriesTitle ≠ "" →
          prodCmp (listCmp tokCmp) (listCmp tokCmp)
            (natKey (jsStr (rep ((sortSeries gs).get i)).seriesTitle),
              natKey (jsStr (rep ((sortSeries gs).get i)).seriesIndex))
            (natKey (jsStr (rep ((sortSeries gs).get j)).seriesTitle),
              natKey (jsStr (rep ((sortSeries gs).get j)).seriesIndex)) ≠ .gt)
      ∧ (jsStr (rep ((sortSeries gs).get i)).seriesTitle = "" →
          jsStr (rep ((sortSeries gs).get j)).seriesTitle = "" →
          listCmp cmpNat (rawCodes (rep ((sortSeries gs).get i)).title)
            (rawCodes (rep ((sortSeries gs).get j)).title) ≠ .gt))
    ∧ sortSeries exSeriesInput = [[exBookG1], [exBookG2], [exBookG3]] := by
  constructor
  · intro i j hij
    have hsorted : (sortSeries gs).Pairwise seriesRel :=
      List.sorted_insertionSort seriesRel gs
    have hrel : seriesRel ((sortSeries gs).get i) ((sortSeries gs).get j) :=
      List.pairwise_iff_get.mp hsorted i j hij
    rw [seriesRel_iff] at hrel
    set x := rep ((sortSeries gs).get i) with hx
    set y := rep ((sortSeries gs).get j) with hy
    refine ⟨?_, ?_, ?_⟩
    · rintro ⟨hxe, hye⟩
      unfold skey at hrel
      rw [if_pos hxe, if_neg hye] at hrel
      exact hrel rfl
    · intro hxe hye
      unfold skey at hrel
      rw [if_neg hxe, if_neg hye] at hrel
      exact hrel
    · intro hxe hye
      unfold skey at hrel
      rw [if_pos hxe, if_pos hye] at hrel
      exact hrel
  · decide

/-- Witness for C5 at a concrete input: in the sorted example the
first two groups are both series-bearing and ordered by the natural
key, discharging the index hypotheses concretely. -/
theorem c5_series_sort_witness :
    ((⟨0, by decide⟩ : Fin (sortSeries exSeriesInput).length) <
      ⟨2, by decide⟩)
    ∧ ¬ (jsStr (rep ((sortSeries exSeriesInput).get ⟨0, by decide⟩)).seriesTitle = ""
        ∧ jsStr (rep ((sortSeries exSeriesInput).get ⟨2, by decide⟩)).seriesTitle ≠ "") :=
  ⟨by decide,
    ((c5_series_sort exSeriesInput).1 ⟨0, by decide⟩ ⟨2, by decide⟩
      (by decide)).1⟩

/-- The `group` sort comparator: `a[0].group || 'zzz'` compared, ties
broken by title. -/
def groupCmp (a b : Book) : Int :=
  let gA := jsOrDefault a.group "zzz"
  let gB := jsOrDefault b.group "zzz"
  if gA ≠ gB then ordInt (localeCmp gA gB) else ordInt (localeCmp a.title b.title)

/-- The sort key the group comparator implements. -/
def gkey (b : Book) : List Nat × List Nat :=
  (rawCodes (jsOrDefault b.group "zzz"), rawCodes b.title)

def gkeyCmp : (List Nat × List Nat) → (List Nat × List Nat) → Ordering :=
  prodCmp (listCmp cmpNat) (listCmp cmpNat)

theorem gkeyCmp_law : LawCmp gkeyCmp :=
  LawCmp.prodCmp_law (LawCmp.listCmp_law LawCmp.cmpNat_law)
    (LawCmp.listCmp_law LawCmp.cmpNat_law)

theorem groupCmp_eq_key (a b : Book) :
    groupCmp a b = ordInt (gkeyCmp (gkey a) (gkey b)) := by
  unfold groupCmp gkey
  dsimp only
  have hred : gkeyCmp (rawCodes (jsOrDefault a.group "zzz"), rawCodes a.title)
      (rawCodes (jsOrDefault b.group "zzz"), rawCodes b.title) =
      match listCmp cmpNat (rawCodes (jsOrDefault a.group "zzz"))
          (rawCodes (jsOrDefault b.group "zzz")) with
      | .eq => listCmp cmpNat (rawCodes a.title) (rawCodes b.title)
      | o => o := rfl
  rw [hred]
  by_cases h : jsOrDefault a.group "zzz" = jsOrDefault b.group "zzz"
  · rw [if_neg (by simpa using h)]
    rw [h, (localeCmp_law_aux.eq_iff _ _).mpr rfl]
    rfl
  · rw [if_pos h]
    unfold localeCmp
    cases hc : listCmp cmpNat (rawCodes (jsOrDefault a.group "zzz"))
        (rawCodes (jsOrDefault b.group "zzz")) with
    | eq =>
      exact absurd (rawCodes_inj ((localeCmp_law_aux.eq_iff _ _).mp hc)) h
    | lt => rfl
    | gt => rfl

/-- The stable-sort relation of the `group` comparator. -/
def groupRel (g h : List Book) : Prop := groupCmp (rep g) (rep h) ≤ 0

instance : DecidableRel groupRel := fun g h =>
  inferInstanceAs (Decidable (groupCmp (rep g) (rep h) ≤ 0))

theorem groupRel_iff (g h : List Book) :
    groupRel g h ↔ gkeyCmp (gkey (rep g)) (gkey (rep h)) ≠ .gt := by
  unfold groupRel
  rw [groupCmp_eq_key]
  exact ordInt_le_zero _

instance : IsTotal (List Book) groupRel :=
  ⟨fun g h => by
    rw [groupRel_iff, groupRel_iff]
    exact gkeyCmp_law.le_total _ _⟩

instance : IsTrans (List Book) groupRel :=
  ⟨fun g h k hab hbc => by
    rw [groupRel_iff] at *
    exact gkeyCmp_law.le_trans hab hbc⟩

/-- Sorting under sort key `group`. -/
def sortGroup (gs : List (List Book)) : List (List Book) :=
  List.insertionSort groupRel gs

/-- C6 (amended): the `group` sort orders groups by the key
(representative group value with absent or empty group replaced by the
literal sentinel "zzz", then title), lexicographically by code points.
Because the sentinel is an ordinary string, a non-empty group value
that compares above "zzz" sorts after groups with no group value at
all, so "non-empty groups always come first" fails (see the
counterexample). -/
theorem c6_group_sort (gs : List (List Book)) :
    ∀ i j : Fin (sortGroup gs).length, i < j →
      gkeyCmp (gkey (rep ((sortGroup gs).get i)))
        (gkey (rep ((sortGroup gs).get j))) ≠ .gt := by
  intro i j hij
  have hsorted : (sortGroup gs).Pairwise groupRel :=
    List.sorted_insertionSort groupRel gs
  have hrel : groupRel ((sortGroup gs).get i) ((sortGroup gs).get j) :=
    List.pairwise_iff_get.mp hsorted i j hij
  exact (groupRel_iff _ _).mp hrel

/-- A record whose group value sorts above the sentinel. -/
def cxBookZ : Book := { baseBook with id := "z1", title := "Za", group := some "zzzz" }

/-- A record with no group value. -/
def cxBookN : Book := { baseBook with id := "z2", title := "Zb" }

/-- Counterexample to C6 as stated: the group-bearing record's group
"zzzz" compares above the sentinel "zzz" substituted for the absent
group, so the group-less group sorts first, contradicting "every group
with a non-empty group value sorts before every group without one". -/
theorem c6_counterexample :
    sortGroup [[cxBookZ], [cxBookN]] = [[cxBookN], [cxBookZ]]
    ∧ strTruthy cxBookZ.group = true ∧ cxBookN.group = none := by
  decide

/-- Witness for C6: a concrete two-group sort is ordered by the key. -/
theorem c6_group_sort_witness :
    ((⟨0, by decide⟩ : Fin (sortGroup [[cxBookZ], [cxBookN]]).length) <
      ⟨1, by decide⟩)
    ∧ gkeyCmp (gkey (rep ((sortGroup [[cxBookZ], [cxBookN]]).get ⟨0, by decide⟩)))
        (gkey (rep ((sortGroup [[cxBookZ], [cxBookN]]).get ⟨1, by decide⟩))) ≠ .gt :=
  ⟨by decide,
    c6_group_sort [[cxBookZ], [cxBookN]] ⟨0, by decide⟩ ⟨1, by decide⟩
      (by decide)⟩

/-- Model of the `recent` comparator key:
`Math.max(...group.map(x => x.addedAt))` (groups are nonempty; the
empty case is unreachable). -/
def maxAdded (g : List Book) : Int :=
  match g with
  | [] => 0
  | b :: bs => bs.foldl (fun m x => max m x.addedAt) b.addedAt

/-- The stable-sort relation of `(a, b) => maxTimeB - maxTimeA`. -/
def recentRel (g h : List Book) : Prop := maxAdded h - maxAdded g ≤ 0

instance : DecidableRel recentRel := fun g h =>
  inferInstanceAs (Decidable (maxAdded h - maxAdded g ≤ 0))

instance : IsTotal (List Book) recentRel :=
  ⟨fun g h => by unfold recentRel; omega⟩

instance : IsTrans (List Book) recentRel :=
  ⟨fun g h k hab hbc => by unfold recentRel at *; omega⟩

/-- Sorting under sort key `recent`. -/
def sortRecent (gs : List (List Book)) : List (List Book) :=
  List.insertionSort recentRel gs

/-- Variants for the C7 example: one group has variants added at 100
and 500, the other a single variant added at 300. -/
def cxBookR1 : Book := { baseBook with id := "r1", title := "R", addedAt := 100 }

def cxBookR2 : Book := { baseBook with id := "r2", title := "R", addedAt := 500 }

def cxBookR3 : Book := { baseBook with id := "r3", title := "S", addedAt := 300 }

/-- C7: under sort key `recent`, groups are ordered by the maximum
addedAt over all their variants, descending; the two-variant example
group behaves as if its timestamp were 500 and therefore sorts before
the group added at 300 even though its representative is older. -/
theorem c7_recent_sort (gs : List (List Book)) :
    (∀ i j : Fin (sortRecent gs).length, i < j →
      maxAdded ((sortRecent gs).get j) ≤ maxAdded ((sortRecent gs).get i))
    ∧ maxAdded [cxBookR1, cxBookR2] = 500
    ∧ sortRecent [[cxBookR3], [cxBookR1, cxBookR2]] =
        [[cxBookR1, cxBookR2], [cxBookR3]] := by
  refine ⟨?_, by decide, by decide⟩
  intro i j hij
  have hsorted : (sortRecent gs).Pairwise recentRel :=
    List.sorted_insertionSort recentRel gs
  have hrel : recentRel ((sortRecent gs).get i) ((sortRecent gs).get j) :=
    List.pairwise_iff_get.mp hsorted i j hij
  unfold recentRel at hrel
  omega

/-- Witness for C7 at a concrete input. -/
theorem c7_recent_sort_witness :
    ((⟨0, by decide⟩ :
        Fin (sortRecent [[cxBookR3], [cxBookR1, cxBookR2]]).length) <
      ⟨1, by decide⟩)
    ∧ maxAdded ((sortRecent [[cxBookR3], [cxBookR1, cxBookR2]]).get
          ⟨1, by decide⟩) ≤
        maxAdded ((sortRecent [[cxBookR3], [cxBookR1, cxBookR2]]).get
          ⟨0, by decide⟩) :=
  ⟨by decide,
    (c7_recent_sort [[cxBookR3], [cxBookR1, cxBookR2]]).1
      ⟨0, by decide⟩ ⟨1, by decide⟩ (by decide)⟩

/-! ## Single-record edit with color propagation (handleUpdateBook) -/

/-- The group propagation pass of `handleUpdateBook` (first forEach):
one full-record write per co-grouped record whose groupColor differs. -/
def groupPuts (books : List Book) (u : Book) : List Book :=
  if strTruthy u.group && !(jsTrim (jsStr u.group) == "") then
    if !(books.filter
          (fun b => b.group == u.group && !(b.id == u.id))).isEmpty
        && strTruthy u.groupColor then
      ((books.filter
          (fun b => b.group == u.group && !(b.id == u.id))).filter
        (fun b => !(b.groupColor == u.groupColor))).map
        (fun b => { b with groupColor := u.groupColor })
    else []
  else []

/-- The series propagation pass (second forEach). -/
def seriesPuts (books : List Book) (u : Book) : List Book :=
  if strTruthy u.seriesTitle && !(jsTrim (jsStr u.seriesTitle) == "") then
    if !(books.filter
          (fun b => b.seriesTitle == u.seriesTitle && !(b.id == u.id))).isEmpty
        && strTruthy u.seriesColor then
      ((books.filter
          (fun b => b.seriesTitle == u.seriesTitle && !(b.id == u.id))).filter
        (fun b => !(b.seriesColor == u.seriesColor))).map
        (fun b => { b with seriesColor := u.seriesColor })
    else []
  else []

/-- Model of `handleUpdateBook`: write the edited record, then apply
the group-pass writes followed by the series-pass writes (the promises
are created in that order and IndexedDB serializes the readwrite
transactions in creation order).  All propagation reads use the
pre-edit record list (the React `books` state). -/
def handleUpdateBook (books : List Book) (u : Book) : List Book :=
  (groupPuts books u ++ seriesPuts books u).foldl put (put books u)

theorem map_split_of_mem {l : List Book} {b : Book}
    (hpw : l.Pairwise (fun x y => x.id ≠ y.id)) (hb : b ∈ l)
    (f : Book → Book) (hf : ∀ x, (f x).id = x.id) :
    ∃ t1 t2, l.map f = t1 ++ f b :: t2 ∧ ∀ v ∈ t2, v.id ≠ b.id := by
  obtain ⟨s, t, rfl⟩ := List.append_of_mem hb
  rw [List.pairwise_append] at hpw
  have hbt := hpw.2.1
  rw [List.pairwise_cons] at hbt
  refine ⟨s.map f, t.map f, by simp, ?_⟩
  intro v hv
  rw [List.mem_map] at hv
  obtain ⟨x, hx, rfl⟩ := hv
  rw [hf x]
  exact fun hc => (hbt.1 x hx) hc.symm

theorem eq_of_mem_of_id_eq {l : List Book}
    (hpw : l.Pairwise (fun x y => x.id ≠ y.id))
    {x y : Book} (hx : x ∈ l) (hy : y ∈ l) (h : x.id = y.id) : x = y := by
  induction l with
  | nil => cases hx
  | cons a as ih =>
    rw [List.pairwise_cons] at hpw
    rcases List.mem_cons.mp hx with rfl | hx'
    · rcases List.mem_cons.mp hy with rfl | hy'
      · rfl
      · exact absurd h (hpw.1 y hy')
    · rcases List.mem_cons.mp hy with rfl | hy'
      · exact absurd h.symm (hpw.1 x hx')
      · exact ih hpw.2 hx' hy'


theorem groupPuts_eq {books : List Book} {u : Book}
    (h1 : strTruthy u.group = true) (h2 : jsTrim (jsStr u.group) ≠ "")
    (h3 : strTruthy u.groupColor = true)
    (hne : (books.filter
        (fun x => x.group == u.group && !(x.id == u.id))).isEmpty = false) :
    groupPuts books u =
      ((books.filter (fun x => x.group == u.group && !(x.id == u.id))).filter
          (fun x => !(x.groupColor == u.groupColor))).map
        (fun x => { x with groupColor := u.groupColor }) := by
  unfold groupPuts
  rw [h1, hne, h3]
  simp [h2]

theorem seriesPuts_eq {books : List Book} {u : Book}
    (h1 : strTruthy u.seriesTitle = true)
    (h2 : jsTrim (jsStr u.seriesTitle) ≠ "")
    (h3 : strTruthy u.seriesColor = true)
    (hne : (books.filter
        (fun x => x.seriesTitle == u.seriesTitle && !(x.id == u.id))).isEmpty
          = false) :
    seriesPuts books u =
      ((books.filter
          (fun x => x.seriesTitle == u.seriesTitle && !(x.id == u.id))).filter
          (fun x => !(x.seriesColor == u.seriesColor))).map
        (fun x => { x with seriesColor := u.seriesColor }) := by
  unfold seriesPuts
  rw [h1, hne, h3]
  simp [h2]

theorem seriesPuts_mem {books : List Book} {u v : Book}
    (hv : v ∈ seriesPuts books u) :
    ∃ x, x ∈ books ∧ v = { x with seriesColor := u.seriesColor }
      ∧ x.seriesTitle = u.seriesTitle ∧ ¬ x.id = u.id
      ∧ ¬ x.seriesColor = u.seriesColor
      ∧ strTruthy u.seriesTitle = true ∧ jsTrim (jsStr u.seriesTitle) ≠ ""
      ∧ strTruthy u.seriesColor = true := by
  unfold seriesPuts at hv
  split at hv
  · next hc1 =>
    split at hv
    · next hc2 =>
      rw [List.mem_map] at hv
      obtain ⟨x, hx, rfl⟩ := hv
      rw [List.mem_filter] at hx
      obtain ⟨hx1, hx2⟩ := hx
      rw [List.mem_filter] at hx1
      obtain ⟨hxb, hx3⟩ := hx1
      simp only [Bool.and_eq_true, Bool.not_eq_true', beq_eq_false_iff_ne,
        ne_eq, beq_iff_eq] at hc1 hc2 hx2 hx3
      exact ⟨x, hxb, rfl, hx3.1, hx3.2, hx2, hc1.1, hc1.2, hc2.2⟩
    · cases hv
  · cases hv

theorem groupPuts_mem {books : List Book} {u v : Book}
    (hv : v ∈ groupPuts books u) :
    ∃ x, x ∈ books ∧ v = { x with groupColor := u.groupColor }
      ∧ x.group = u.group ∧ ¬ x.id = u.id
      ∧ ¬ x.groupColor = u.groupColor := by
  unfold groupPuts at hv
  split at hv
  · split at hv
    · rw [List.mem_map] at hv
      obtain ⟨x, hx, rfl⟩ := hv
      rw [List.mem_filter] at hx
      obtain ⟨hx1, hx2⟩ := hx
      rw [List.mem_filter] at hx1
      obtain ⟨hxb, hx3⟩ := hx1
      simp only [Bool.and_eq_true, Bool.not_eq_true', beq_eq_false_iff_ne,
        ne_eq, beq_iff_eq] at hx2 hx3
      exact ⟨x, hxb, rfl, hx3.1, hx3.2, hx2⟩
    · cases hv
  · cases hv

/-- C3 (amended): after a single-record edit, when the edited record's
group trims to non-empty and its groupColor is truthy, every other
record sharing the exact group string with a differing groupColor ends
up with the edited record's groupColor — unless that record also
receives a seriesColor propagation write, in which case the later
full-record series write wins and only its seriesColor changes.  The
seriesTitle → seriesColor propagation itself holds unconditionally
(its writes are applied last).  A whitespace-only group does not
propagate (see the counterexample). -/
theorem c3_color_propagation (books : List Book) (u b : Book)
    (huniq : books.Pairwise (fun x y => x.id ≠ y.id))
    (hb : b ∈ books) (hbid : ¬ b.id = u.id) :
    ((strTruthy u.group = true) → jsTrim (jsStr u.group) ≠ "" →
      strTruthy u.groupColor = true →
      b.group = u.group → ¬ b.groupColor = u.groupColor →
      ¬ (strTruthy u.seriesTitle = true ∧ jsTrim (jsStr u.seriesTitle) ≠ ""
          ∧ strTruthy u.seriesColor = true ∧ b.seriesTitle = u.seriesTitle
          ∧ ¬ b.seriesColor = u.seriesColor) →
      lookupId (handleUpdateBook books u) b.id =
        some { b with groupColor := u.groupColor })
    ∧ ((strTruthy u.seriesTitle = true) → jsTrim (jsStr u.seriesTitle) ≠ "" →
      strTruthy u.seriesColor = true →
      b.seriesTitle = u.seriesTitle → ¬ b.seriesColor = u.seriesColor →
      lookupId (handleUpdateBook books u) b.id =
        some { b with seriesColor := u.seriesColor }) := by
  constructor
  · intro h1 h2 h3 hgrp hdiff hnos
    have hbgb : b ∈ books.filter
        (fun x => x.group == u.group && !(x.id == u.id)) :=
      List.mem_filter.mpr ⟨hb, by simp [hgrp, hbid]⟩
    have hne : (books.filter
        (fun x => x.group == u.group && !(x.id == u.id))).isEmpty = false := by
      cases hgbe : books.filter (fun x => x.group == u.group && !(x.id == u.id)) with
      | nil => rw [hgbe] at hbgb; cases hbgb
      | cons a as => rfl
    have hbgf : b ∈ (books.filter
        (fun x => x.group == u.group && !(x.id == u.id))).filter
          (fun x => !(x.groupColor == u.groupColor)) :=
      List.mem_filter.mpr ⟨hbgb, by simp [hdiff]⟩
    have hpwf : ((books.filter
        (fun x => x.group == u.group && !(x.id == u.id))).filter
          (fun x => !(x.groupColor == u.groupColor))).Pairwise
        (fun x y => x.id ≠ y.id) := (huniq.filter _).filter _
    obtain ⟨t1, t2, heq, ht2⟩ := map_split_of_mem hpwf hbgf
      (fun x => { x with groupColor := u.groupColor }) (fun x => rfl)
    unfold handleUpdateBook
    rw [groupPuts_eq h1 h2 h3 hne, heq, List.append_assoc, List.cons_append]
    refine lookupId_foldl_put_split _ _ _ _ ?_
    intro v hv
    rw [List.mem_append] at hv
    rcases hv with hv | hv
    · exact ht2 v hv
    · obtain ⟨x, hxb, rfl, hxs, hxid, hxc, hs1, hs2, hs3⟩ := seriesPuts_mem hv
      show x.id ≠ _
      intro hc
      have hxe : x = b := eq_of_mem_of_id_eq huniq hxb hb hc
      subst hxe
      exact hnos ⟨hs1, hs2, hs3, hxs, hxc⟩
  · intro h1 h2 h3 hser hdiff
    have hbsb : b ∈ books.filter
        (fun x => x.seriesTitle == u.seriesTitle && !(x.id == u.id)) :=
      List.mem_filter.mpr ⟨hb, by simp [hser, hbid]⟩
    have hne : (books.filter
        (fun x => x.seriesTitle == u.seriesTitle && !(x.id == u.id))).isEmpty
          = false := by
      cases hgbe : books.filter
          (fun x => x.seriesTitle == u.seriesTitle && !(x.id == u.id)) with
      | nil => rw [hgbe] at hbsb; cases hbsb
      | cons a as => rfl
    have hbsf : b ∈ (books.filter
        (fun x => x.seriesTitle == u.seriesTitle && !(x.id == u.id))).filter
          (fun x => !(x.seriesColor == u.seriesColor)) :=
      List.mem_filter.mpr ⟨hbsb, by simp [hdiff]⟩
    have hpwf : ((books.filter
        (fun x => x.seriesTitle == u.seriesTitle && !(x.id == u.id))).filter
          (fun x => !(x.seriesColor == u.seriesColor))).Pairwise
        (fun x y => x.id ≠ y.id) := (huniq.filter _).filter _
    obtain ⟨t1, t2, heq, ht2⟩ := map_split_of_mem hpwf hbsf
      (fun x => { x with seriesColor := u.seriesColor }) (fun x => rfl)
    unfold handleUpdateBook
    rw [seriesPuts_eq h1 h2 h3 hne, heq, ← List.append_assoc]
    exact lookupId_foldl_put_split _ _ _ _ ht2

/-- Pre-edit and post-edit versions of a record whose group is a
single space, plus another record sharing that group. -/
def cxEdit0 : Book := { baseBook with id := "u1", title := "U", group := some " " }

def cxEdit : Book :=
  { baseBook with
    id := "u1", title := "U", group := some " ",
    groupColor := some "#00ff00" }

def cxOther : Book :=
  { baseBook with
    id := "u2", title := "V", group := some " ",
    groupColor := some "#ff0000" }

/-- Counterexample to C3 as stated: the edited record's group " " is
non-empty and its groupColor is set, the other record shares the exact
group string and has a differing groupColor, yet it is left unchanged
because the code also requires `group.trim() !== ''`. -/
theorem c3_counterexample :
    lookupId (handleUpdateBook [cxEdit0, cxOther] cxEdit) "u2" = some cxOther
    ∧ strTruthy cxEdit.group = true
    ∧ strTruthy cxEdit.groupColor = true
    ∧ cxOther.group = cxEdit.group
    ∧ cxOther.groupColor ≠ cxEdit.groupColor := by
  decide

/-- Concrete records for the C3 witness: the edit propagates its
groupColor to a co-grouped record and its seriesColor to a co-seried
record. -/
def propEdit : Book :=
  { baseBook with
    id := "wu", group := some "Sci-Fi", groupColor := some "#00ff00",
    seriesTitle := some "Saga", seriesColor := some "#111111" }

def propEdit0 : Book := { propEdit with groupColor := none }

def propGroupMate : Book :=
  { baseBook with
    id := "wb", group := some "Sci-Fi", groupColor := some "#ff0000" }

def propSeriesMate : Book :=
  { baseBook with
    id := "wc", seriesTitle := some "Saga", seriesColor := some "#222222" }

/-- Witness for C3 at a concrete store: both propagation conclusions
hold for records overlapping in exactly one family each. -/
theorem c3_color_propagation_witness :
    lookupId (handleUpdateBook [propEdit0, propGroupMate, propSeriesMate] propEdit)
        "wb" = some { propGroupMate with groupColor := propEdit.groupColor }
    ∧ lookupId (handleUpdateBook [propEdit0, propGroupMate, propSeriesMate] propEdit)
        "wc" = some { propSeriesMate with seriesColor := propEdit.seriesColor } :=
  ⟨(c3_color_propagation [propEdit0, propGroupMate, propSeriesMate] propEdit
      propGroupMate (by decide) (by decide) (by decide)).1
      (by decide) (by decide) (by decide) (by decide) (by decide) (by decide),
   (c3_color_propagation [propEdit0, propGroupMate, propSeriesMate] propEdit
      propSeriesMate (by decide) (by decide) (by decide)).2
      (by decide) (by decide) (by decide) (by decide) (by decide)⟩

/-! ## Bulk mutation engine (handleBulkSave, src/App.tsx and
BulkEditModal's BulkUpdateData) -/

inductive BulkMode where
  | keep
  | set
  | clear
deriving DecidableEq, Repr

inductive SeriesIndexMode where
  | keep
  | auto
  | same
deriving DecidableEq, Repr

/-- The BulkUpdateData payload of the bulk edit modal. -/
structure BulkUpdateData where
  groupMode : BulkMode
  groupName : String
  groupColor : String
  seriesMode : BulkMode
  seriesTitle : String
  seriesIndexMode : SeriesIndexMode
  seriesIndexStart : Int
  seriesIndexValue : String
  statusMode : BulkMode
  statusValue : String
deriving DecidableEq, Repr

/-- The record written for a member of the selection's i-th group:
`{ ...book, ...changes }` with the changes computed per group.  A
cleared field is the empty string (a present field set to ''); a
cleared color is `undefined` (spread with an undefined value). -/
def applyBulk (data : BulkUpdateData) (i : Nat) (b : Book) : Book :=
  let b1 :=
    match data.groupMode with
    | .clear => { b with group := some "", groupColor := none }
    | .set => { b with
        group := some data.groupName, groupColor := some data.groupColor }
    | .keep => b
  let b2 :=
    match data.seriesMode with
    | .clear => { b1 with seriesTitle := some "", seriesIndex := some "" }
    | .set =>
      match data.seriesIndexMode with
      | .auto => { b1 with
          seriesTitle := some data.seriesTitle,
          seriesIndex := some (toString (data.seriesIndexStart + (i : Int))) }
      | .same => { b1 with
          seriesTitle := some data.seriesTitle,
          seriesIndex := some data.seriesIndexValue }
      | .keep => { b1 with seriesTitle := some data.seriesTitle }
    | .keep => b1
  match data.statusMode with
  | .clear => { b2 with status := some "" }
  | .set => { b2 with status := some data.statusValue }
  | .keep => b2

/-- `Object.keys(changes).length > 0`: the changes object is nonempty
exactly when some mode is not `keep` (each non-keep mode adds at least
one key; the check is the same for every loop iteration). -/
def changesNonempty (data : BulkUpdateData) : Bool :=
  !(data.groupMode == BulkMode.keep)
    || !(data.seriesMode == BulkMode.keep)
    || !(data.statusMode == BulkMode.keep)

/-- The groups whose representative (first) record is selected:
`filteredAndSortedGroups.filter(g => selectedBookIds.has(g[0].id))`. -/
def selectedGroups (groups : List (List Book)) (sel : List String) :
    List (List Book) :=
  groups.filter (fun g => sel.contains (rep g).id)

/-- All records written by the bulk loop, in write order: for the i-th
selected group every member record merged with that group's changes. -/
def bulkWrites (groups : List (List Book)) (sel : List String)
    (data : BulkUpdateData) : List Book :=
  if changesNonempty data then
    (((selectedGroups groups sel).enum).map
      (fun p => p.2.map (applyBulk data p.1))).flatten
  else []

/-- Model of `handleBulkSave` on the record store: all writes applied
in order via the store's put. -/
def handleBulkSave (store : List Book) (groups : List (List Book))
    (sel : List String) (data : BulkUpdateData) : List Book :=
  (bulkWrites groups sel data).foldl put store

theorem applyBulk_id (data : BulkUpdateData) (i : Nat) (b : Book) :
    (applyBulk data i b).id = b.id := by
  unfold applyBulk
  cases data.groupMode <;> cases data.seriesMode <;>
    cases data.seriesIndexMode <;> cases data.statusMode <;> rfl

theorem mem_of_mem_enumFrom {α : Type _} :
    ∀ {l : List α} {k : Nat} {p : Nat × α},
      p ∈ List.enumFrom k l → p.2 ∈ l := by
  intro l
  induction l with
  | nil => intro k p h; cases h
  | cons x xs ih =>
    intro k p h
    have h2 : p ∈ (k, x) :: List.enumFrom (k + 1) xs := h
    rcases List.mem_cons.mp h2 with rfl | h'
    · simp
    · exact List.mem_cons_of_mem _ (ih h')

theorem lookup_enumFrom_writes (data : BulkUpdateData) :
    ∀ (sg : List (List Book)) (k : Nat) (store : List Book),
      (sg.flatten).Pairwise (fun x y => x.id ≠ y.id) →
      ∀ (i : Nat) (hi : i < sg.length) (b : Book), b ∈ sg.get ⟨i, hi⟩ →
      lookupId
        ((((List.enumFrom k sg).map
            (fun p => p.2.map (applyBulk data p.1))).flatten).foldl put store)
        b.id = some (applyBulk data (k + i) b) := by
  intro sg
  induction sg with
  | nil => intro k store _ i hi; exact absurd hi (by simp)
  | cons g gs ih =>
    intro k store hpw i hi b hb
    rw [List.flatten_cons, List.pairwise_append] at hpw
    have hw : ((List.enumFrom k (g :: gs)).map
          (fun p => p.2.map (applyBulk data p.1))).flatten
        = g.map (applyBulk data k)
          ++ ((List.enumFrom (k + 1) gs).map
            (fun p => p.2.map (applyBulk data p.1))).flatten := rfl
    rw [hw, List.foldl_append]
    cases i with
    | zero =>
      have hbg : b ∈ g := by simpa using hb
      have hrest : ∀ v ∈ ((List.enumFrom (k + 1) gs).map
          (fun p => p.2.map (applyBulk data p.1))).flatten, v.id ≠ b.id := by
        intro v hv
        rw [List.mem_flatten] at hv
        obtain ⟨l, hl, hvl⟩ := hv
        rw [List.mem_map] at hl
        obtain ⟨p, hp, rfl⟩ := hl
        rw [List.mem_map] at hvl
        obtain ⟨x, hx, rfl⟩ := hvl
        rw [applyBulk_id]
        have hxf : x ∈ gs.flatten :=
          List.mem_flatten.mpr ⟨p.2, mem_of_mem_enumFrom hp, hx⟩
        exact fun hc => (hpw.2.2 b hbg x hxf) hc.symm
      rw [lookupId_foldl_put_of_forall _ _ _ hrest]
      obtain ⟨t1, t2, heq, ht2⟩ :=
        map_split_of_mem hpw.1 hbg (applyBulk data k) (applyBulk_id data k)
      rw [heq, Nat.add_zero]
      have hid := applyBulk_id data k b
      rw [← hid]
      refine lookupId_foldl_put_split t1 t2 _ store ?_
      intro v hv
      rw [hid]
      exact ht2 v hv
    | succ n =>
      have hi' : n < gs.length := by simpa using hi
      have hb' : b ∈ gs.get ⟨n, hi'⟩ := by simpa using hb
      have harith : k + (n + 1) = (k + 1) + n := by omega
      rw [harith]
      exact ih (k + 1) _ hpw.2.1 n hi' b hb'

theorem group_eq_of_shared_mem {groups : List (List Book)}
    (huniq : (groups.flatten).Pairwise (fun x y => x.id ≠ y.id))
    {g1 g2 : List Book} (h1 : g1 ∈ groups) (h2 : g2 ∈ groups)
    {x : Book} (hx1 : x ∈ g1) (hx2 : x ∈ g2) : g1 = g2 := by
  induction groups with
  | nil => cases h1
  | cons g gs ih =>
    rw [List.flatten_cons, List.pairwise_append] at huniq
    rcases List.mem_cons.mp h1 with rfl | h1'
    · rcases List.mem_cons.mp h2 with rfl | h2'
      · rfl
      · exact absurd rfl
          (huniq.2.2 x hx1 x (List.mem_flatten.mpr ⟨g2, h2', hx2⟩))
    · rcases List.mem_cons.mp h2 with rfl | h2'
      · exact absurd rfl
          (huniq.2.2 x hx2 x (List.mem_flatten.mpr ⟨g1, h1', hx1⟩))
      · exact ih huniq.2.1 h1' h2'

theorem bulk_lookup {store : List Book} {groups : List (List Book)}
    {sel : List String} {data : BulkUpdateData}
    (hch : changesNonempty data = true)
    (huniq : ((selectedGroups groups sel).flatten).Pairwise
      (fun x y => x.id ≠ y.id))
    {i : Nat} (hi : i < (selectedGroups groups sel).length) {b : Book}
    (hb : b ∈ (selectedGroups groups sel).get ⟨i, hi⟩) :
    lookupId (handleBulkSave store groups sel data) b.id =
      some (applyBulk data i b) := by
  unfold handleBulkSave bulkWrites
  rw [if_pos hch]
  have h := lookup_enumFrom_writes data (selectedGroups groups sel) 0 store
    huniq i hi b hb
  rw [Nat.zero_add] at h
  exact h

/-- C2: with series mode `set` and index sub-mode `auto`, every
variant of the group at 0-based selection position i is written with
seriesIndex the decimal string of start + i. -/
theorem c2_bulk_auto_index (store : List Book) (groups : List (List Book))
    (sel : List String) (data : BulkUpdateData)
    (hm : data.seriesMode = BulkMode.set)
    (him : data.seriesIndexMode = SeriesIndexMode.auto)
    (huniq : ((selectedGroups groups sel).flatten).Pairwise
      (fun x y => x.id ≠ y.id))
    (i : Nat) (hi : i < (selectedGroups groups sel).length) (b : Book)
    (hb : b ∈ (selectedGroups groups sel).get ⟨i, hi⟩) :
    lookupId (handleBulkSave store groups sel data) b.id =
      some (applyBulk data i b)
    ∧ (applyBulk data i b).seriesIndex =
        some (toString (data.seriesIndexStart + (i : Int))) := by
  have hch : changesNonempty data = true := by
    unfold changesNonempty
    rw [hm]
    simp
  refine ⟨bulk_lookup hch huniq hi hb, ?_⟩
  cases hs : data.statusMode <;> cases hg : data.groupMode <;>
    simp [applyBulk, hm, him, hs, hg]

/-- C1 (amended): `clear` on the group family resets group to the
empty string and groupColor to absent on every member record of every
selected group; `clear` on the series family resets seriesTitle and
seriesIndex to the empty string but leaves seriesColor unchanged (the
code never clears seriesColor — see the counterexample). -/
theorem c1_bulk_clear (store : List Book) (groups : List (List Book))
    (sel : List String) (data : BulkUpdateData)
    (huniq : ((selectedGroups groups sel).flatten).Pairwise
      (fun x y => x.id ≠ y.id))
    (i : Nat) (hi : i < (selectedGroups groups sel).length) (b : Book)
    (hb : b ∈ (selectedGroups groups sel).get ⟨i, hi⟩) :
    (data.groupMode = BulkMode.clear →
      ∃ r, lookupId (handleBulkSave store groups sel data) b.id = some r
        ∧ r.group = some "" ∧ r.groupColor = none)
    ∧ (data.seriesMode = BulkMode.clear →
      ∃ r, lookupId (handleBulkSave store groups sel data) b.id = some r
        ∧ r.seriesTitle = some "" ∧ r.seriesIndex = some ""
        ∧ r.seriesColor = b.seriesColor) := by
  constructor
  · intro hgm
    have hch : changesNonempty data = true := by
      unfold changesNonempty
      rw [hgm]
      simp
    refine ⟨applyBulk data i b, bulk_lookup hch huniq hi hb, ?_, ?_⟩
    · cases hs : data.statusMode <;> cases hsm : data.seriesMode <;>
        cases hsi : data.seriesIndexMode <;>
        simp [applyBulk, hgm, hs, hsm, hsi]
    · cases hs : data.statusMode <;> cases hsm : data.seriesMode <;>
        cases hsi : data.seriesIndexMode <;>
        simp [applyBulk, hgm, hs, hsm, hsi]
  · intro hsm
    have hch : changesNonempty data = true := by
      unfold changesNonempty
      rw [hsm]
      simp
    refine ⟨applyBulk data i b, bulk_lookup hch huniq hi hb, ?_, ?_, ?_⟩
    · cases hs : data.statusMode <;> cases hg : data.groupMode <;>
        simp [applyBulk, hsm, hs, hg]
    · cases hs : data.statusMode <;> cases hg : data.groupMode <;>
        simp [applyBulk, hsm, hs, hg]
    · cases hs : data.statusMode <;> cases hg : data.groupMode <;>
        simp [applyBulk, hsm, hs, hg]

/-- C10: a group whose representative (first) record's id is not
selected is entirely outside the batch: every one of its records is
left unchanged in the store, even when a non-representative variant's
id is selected. -/
theorem c10_bulk_frame (store : List Book) (groups : List (List Book))
    (sel : List String) (data : BulkUpdateData)
    (huniq : (groups.flatten).Pairwise (fun x y => x.id ≠ y.id))
    (g : List Book) (hg : g ∈ groups)
    (hns : sel.contains (rep g).id = false)
    (b : Book) (hb : b ∈ g) :
    lookupId (handleBulkSave store groups sel data) b.id =
      lookupId store b.id := by
  unfold handleBulkSave
  refine lookupId_foldl_put_of_forall _ _ _ ?_
  intro w hw
  unfold bulkWrites at hw
  by_cases hch : changesNonempty data = true
  · rw [if_pos hch] at hw
    rw [List.mem_flatten] at hw
    obtain ⟨l, hl, hwl⟩ := hw
    rw [List.mem_map] at hl
    obtain ⟨p, hp, rfl⟩ := hl
    rw [List.mem_map] at hwl
    obtain ⟨x, hx, rfl⟩ := hwl
    rw [applyBulk_id]
    have hsg : p.2 ∈ selectedGroups groups sel := mem_of_mem_enumFrom hp
    have hgin : p.2 ∈ groups := List.mem_of_mem_filter hsg
    intro hc
    have hxb : x = b := eq_of_mem_of_id_eq huniq
      (List.mem_flatten.mpr ⟨p.2, hgin, hx⟩)
      (List.mem_flatten.mpr ⟨g, hg, hb⟩) hc
    subst hxb
    have hgeq : p.2 = g := group_eq_of_shared_mem huniq hgin hg hx hb
    rw [hgeq] at hsg
    unfold selectedGroups at hsg
    rw [List.mem_filter] at hsg
    have := hsg.2
    simp only [hns] at this
    exact Bool.noConfusion this
  · rw [if_neg hch] at hw
    cases hw

/-- Bulk data clearing both the group and the series family. -/
def clearData : BulkUpdateData :=
  { groupMode := BulkMode.clear, groupName := "", groupColor := "",
    seriesMode := BulkMode.clear, seriesTitle := "",
    seriesIndexMode := SeriesIndexMode.keep, seriesIndexStart := 0,
    seriesIndexValue := "", statusMode := BulkMode.keep, statusValue := "" }

/-- A fully tagged record to bulk-clear. -/
def cxClearBook : Book :=
  { baseBook with
    id := "cb", group := some "G", groupColor := some "#aaaaaa",
    seriesTitle := some "S", seriesIndex := some "3",
    seriesColor := some "#ff0000" }

/-- Counterexample to C1 as stated: after a bulk edit with series mode
`clear`, the member record keeps its seriesColor — the code clears
seriesTitle and seriesIndex but never seriesColor, so the paired color
of the series family is not reset to absent. -/
theorem c1_counterexample :
    clearData.seriesMode = BulkMode.clear
    ∧ (lookupId (handleBulkSave [cxClearBook] [[cxClearBook]] ["cb"] clearData)
        "cb").map Book.seriesColor = some (some "#ff0000") := by
  decide

/-- Witness for C1 at a concrete store. -/
theorem c1_bulk_clear_witness :
    (∃ r, lookupId
        (handleBulkSave [cxClearBook] [[cxClearBook]] ["cb"] clearData)
        "cb" = some r ∧ r.group = some "" ∧ r.groupColor = none)
    ∧ (∃ r, lookupId
        (handleBulkSave [cxClearBook] [[cxClearBook]] ["cb"] clearData)
        "cb" = some r ∧ r.seriesTitle = some "" ∧ r.seriesIndex = some ""
        ∧ r.seriesColor = cxClearBook.seriesColor) :=
  ⟨(c1_bulk_clear [cxClearBook] [[cxClearBook]] ["cb"] clearData (by decide)
      0 (by decide) cxClearBook (by decide)).1 rfl,
   (c1_bulk_clear [cxClearBook] [[cxClearBook]] ["cb"] clearData (by decide)
      0 (by decide) cxClearBook (by decide)).2 rfl⟩

/-- Records and data for the C2 witness: three selected groups, the
first with two variants, start value 5. -/
def bG1a : Book := { baseBook with id := "g1a", title := "G1" }

def bG1b : Book := { baseBook with id := "g1b", title := "G1v" }

def bG2 : Book := { baseBook with id := "g2", title := "G2" }

def bG3 : Book := { baseBook with id := "g3", title := "G3" }

def autoGroups : List (List Book) := [[bG1a, bG1b], [bG2], [bG3]]

def autoSel : List String := ["g1a", "g2", "g3"]

def autoData : BulkUpdateData :=
  { groupMode := BulkMode.keep, groupName := "", groupColor := "",
    seriesMode := BulkMode.set, seriesTitle := "Saga",
    seriesIndexMode := SeriesIndexMode.auto, seriesIndexStart := 5,
    seriesIndexValue := "", statusMode := BulkMode.keep, statusValue := "" }

/-- Witness for C2: with start 5 the second selected group receives
seriesIndex "6", written to the store. -/
theorem c2_bulk_auto_index_witness :
    lookupId (handleBulkSave [bG1a, bG1b, bG2, bG3] autoGroups autoSel autoData)
        "g2" = some (applyBulk autoData 1 bG2)
    ∧ (applyBulk autoData 1 bG2).seriesIndex = some "6" := by
  have h := c2_bulk_auto_index [bG1a, bG1b, bG2, bG3] autoGroups autoSel
    autoData rfl rfl (by decide) 1 (by decide) bG2 (by decide)
  exact ⟨h.1, by rw [h.2]; decide⟩

/-- Records for the C10 witness: the second group's representative is
"fy" but only the non-representative variant "fz" is selected. -/
def frameX : Book := { baseBook with id := "fx", title := "X" }

def frameY : Book := { baseBook with id := "fy", title := "Y" }

def frameZ : Book := { baseBook with id := "fz", title := "Y" }

def frameGroups : List (List Book) := [[frameX], [frameY, frameZ]]

/-- Witness for C10: selecting only a non-representative variant
leaves its whole group untouched by a clearing bulk edit. -/
theorem c10_bulk_frame_witness :
    lookupId
      (handleBulkSave [frameX, frameY, frameZ] frameGroups ["fz"] clearData)
      "fz" = lookupId [frameX, frameY, frameZ] "fz" :=
  c10_bulk_frame [frameX, frameY, frameZ] frameGroups ["fz"] clearData
    (by decide) [frameY, frameZ] (by decide) (by decide) frameZ (by decide)
